import Mathlib

/-!
Verification of the double-word arithmetic module (cdsl/dwa.c) of the
ocelot library.

The module implements a fixed-width integer of twice the native word
width as a little-endian array of base-256 digits
(`unsigned char v[sizeof(dwa_ubase_t) * 2]`).  We embed the canonical
configuration described by the specification: a 32-bit native `long`
(`dwa_ubase_t`), hence `SIZE = 8` digits and a 64-bit double word.

A `dwa_t` value is embedded as a `List Nat` of its digits (index 0 =
least significant).  Well-formedness (`Wf`) says the list has length
`SIZE` and every digit is below 256; every C `dwa_t` satisfies this by
construction of `unsigned char`.

Each Lean definition mirrors the corresponding C function of dwa.c;
loops become structural recursions over digit lists, with carries and
borrows passed explicitly.
-/

namespace Dwa

/-- `SIZE` from dwa.c: number of base-256 digits (canonical config: 8). -/
def SIZE : Nat := 8

/-- `BASE` from dwa.c: the digit radix, 1 << 8. -/
def BASE : Nat := 256

/-- Modulus of the full double word, `2^(8*SIZE)`. -/
def DMOD : Nat := BASE ^ SIZE

/-- Modulus of the native unsigned long (32-bit in this configuration). -/
def UMOD : Nat := 2 ^ 32

/-- A double-word value: the digit array `u.v`, little-endian. -/
abbrev Dwa := List Nat

/-- Well-formedness of an embedded `dwa_t`: `SIZE` digits, each a byte. -/
def Wf (x : Dwa) : Prop := x.length = SIZE ∧ ∀ d ∈ x, d < BASE

instance : DecidablePred Wf := fun x => by unfold Wf; infer_instance

/-- Unsigned numeric value of a little-endian digit list. -/
def val : List Nat → Nat
  | [] => 0
  | d :: ds => d + BASE * val ds

/-- The all-zero double word `dwa_t t = { 0, }`. -/
def zeroDwa : Dwa := List.replicate SIZE 0

/-- `sign(x)` from dwa.c: `x.u.v[SIZE-1] >> 7`. -/
def sign (x : Dwa) : Nat := x.getD (SIZE - 1) 0 / 128

/-- Carry loop of `dwa_addu`: `c += x[i] + y[i]; t[i] = c % BASE; c /= BASE`. -/
def adcAux : List Nat → List Nat → Nat → List Nat
  | [], _, _ => []
  | _ :: _, [], _ => []
  | a :: as, b :: bs, c =>
      ((c + a + b) % BASE) :: adcAux as bs ((c + a + b) / BASE)

/-- `dwa_addu` from dwa.c. -/
def dwa_addu (x y : Dwa) : Dwa := adcAux x y 0

/-- `dwa_add` from dwa.c: identical to `dwa_addu`. -/
def dwa_add (x y : Dwa) : Dwa := dwa_addu x y

/-- Carry loop of `dwa_neg`: `c += (unsigned char)~x[i]; t[i] = c % BASE;
`c /= BASE` with `c` initialized to 1; `~` on a byte is `255 - digit`. -/
def negAux : List Nat → Nat → List Nat
  | [], _ => []
  | a :: as, c =>
      ((c + (BASE - 1 - a)) % BASE) :: negAux as ((c + (BASE - 1 - a)) / BASE)

/-- `dwa_neg` from dwa.c. -/
def dwa_neg (x : Dwa) : Dwa := negAux x 1

/-- Loop of `dwa_fromuint`: `do { t.u.v[i++] = v % BASE; } while ((v /= BASE) > 0
`&& i < SIZE)`; remaining digits stay zero-initialized. -/
def fromuintGo (v : Nat) : Nat → List Nat
  | 0 => []
  | cap + 1 =>
      (v % BASE) ::
        (if 0 < v / BASE then fromuintGo (v / BASE) cap else List.replicate cap 0)

/-- `dwa_fromuint` from dwa.c; the argument is a native unsigned long value. -/
def dwa_fromuint (v : Nat) : Dwa := fromuintGo v SIZE

/-- `dwa_fromint` from dwa.c; `LONG_MIN` (`-2^31`) is special-cased as
`LONG_MAX+1ul` = `2^31`. -/
def dwa_fromint (v : Int) : Dwa :=
  if v < 0 then
    dwa_neg (dwa_fromuint (if v = -(2 ^ 31) then 2 ^ 31 else (-v).toNat))
  else dwa_fromuint v.toNat

/-- Loop of `dwa_touint`: `for (i = SIZE/2; i > 0;) v = v*BASE + x.u.v[--i];`
with `v` an unsigned long, hence reduced mod `UMOD` at every step. -/
def touintGo (x : Dwa) : Nat → Nat → Nat
  | 0, v => v
  | i + 1, v => touintGo x i ((v * BASE + x.getD i 0) % UMOD)

/-- `dwa_touint` from dwa.c. -/
def dwa_touint (x : Dwa) : Nat := touintGo x (SIZE / 2) 0

/-- C conversion of an unsigned long value to (signed) long, assuming the
two's-complement wrap the source relies on ("overflows are benign"). -/
def toLong (u : Nat) : Int :=
  if u % UMOD < 2 ^ 31 then (u % UMOD : Int) else (u % UMOD : Int) - (UMOD : Int)

/-- Wrapping of a mathematical integer into the native long range, modelling
the benign-overflow assumption for `-(long)...` in `dwa_toint`. -/
def wrapLong (i : Int) : Int := ((i + 2 ^ 31) % (UMOD : Int)) - 2 ^ 31

/-- `dwa_toint` from dwa.c. -/
def dwa_toint (x : Dwa) : Int :=
  if sign x ≠ 0 then wrapLong (-(toLong (dwa_touint (dwa_neg x))))
  else toLong (dwa_touint x)

/-- Tail of `dwa_mulu`'s inner loop: `for (; j < 2*SIZE - i; j++)` propagates
the carry through the rest of the product column. -/
def propagate : Nat → List Nat → List Nat
  | _, [] => []
  | c, z :: zs => ((c + z) % BASE) :: propagate ((c + z) / BASE) zs

/-- Inner loop of `dwa_mulu` for one digit `xi` of `x`, acting on the suffix of
the product array starting at column `i`: first
`c += x[i]*y[j] + z[i+j]` over the digits of `y`, then carry propagation. -/
def mulInner (xi : Nat) : List Nat → List Nat → Nat → List Nat
  | zs, [], c => propagate c zs
  | [], _ :: _, _ => []
  | z :: zs, yj :: ys, c =>
      ((c + xi * yj + z) % BASE) :: mulInner xi zs ys ((c + xi * yj + z) / BASE)

/-- Outer loop of `dwa_mulu`: digit `i` of `x` updates columns `i..2*SIZE-1`,
i.e. the suffix of the product array from position `i`. -/
def muluOuter (y : List Nat) : List Nat → List Nat → List Nat
  | [], zs => zs
  | xi :: xs, zs =>
      match mulInner xi zs y 0 with
      | [] => []
      | z0 :: rest => z0 :: muluOuter y xs rest

/-- `dwa_mulu` from dwa.c: schoolbook product into a `2*SIZE`-digit array,
result is the low `SIZE` digits (`memcpy(t.u.v, z, SIZE)`). -/
def dwa_mulu (x y : Dwa) : Dwa :=
  (muluOuter y x (List.replicate (2 * SIZE) 0)).take SIZE

/-- Loop of `len`: `for (i = SIZE; i > 1 && x.u.v[i-1] == 0; i--)`. -/
def lenGo (x : Dwa) : Nat → Nat
  | 0 => 0
  | 1 => 1
  | i + 2 => if x.getD (i + 1) 0 = 0 then lenGo x (i + 1) else i + 2

/-- `len` from dwa.c: number of significant digits (at least 1). -/
def len (x : Dwa) : Nat := lenGo x SIZE

/-- Loop of `quot`, processing digits most-significant first (the input list
here is `x` reversed): `c = c*BASE + x[i]; t[i] = c / y; c %= y`. -/
def quotAux (y : Nat) : List Nat → Nat → List Nat × Nat
  | [], c => ([], c)
  | d :: ds, c =>
      let p := quotAux y ds ((c * BASE + d) % y)
      (((c * BASE + d) / y) :: p.1, p.2)

/-- `quot` from dwa.c: short division of a double word by a single digit;
with `mod` set the remainder is returned in digit 0 instead. -/
def quot (x : Dwa) (y : Nat) (mod : Bool) : Dwa :=
  let p := quotAux y x.reverse 0
  if mod then p.2 :: List.replicate (SIZE - 1) 0 else p.1.reverse

/-- Loop of `prod`: `c += x[i]*y; z[i] = c % BASE; c /= BASE`. -/
def prodAux (y : Nat) : List Nat → Nat → List Nat × Nat
  | [], c => ([], c)
  | d :: ds, c =>
      let p := prodAux y ds ((c + d * y) / BASE)
      (((c + d * y) % BASE) :: p.1, p.2)

/-- `prod` from dwa.c: multiplies the first `n` digits of `x` by the single
digit `y`; returns the `n` result digits and the final carry. -/
def prod (n : Nat) (x : List Nat) (y : Nat) : List Nat × Nat :=
  prodAux y (x.take n) 0

/-- `sub` from dwa.c: borrowing subtraction
`d = (x[i] + BASE) - b - y[i]; z[i] = d % BASE; b = 1 - d/BASE`. -/
def subAux : List Nat → List Nat → Nat → List Nat
  | [], _, _ => []
  | _ :: _, [], _ => []
  | d :: ds, e :: es, b =>
      (((d + BASE) - b - e) % BASE) ::
        subAux ds es (1 - ((d + BASE) - b - e) / BASE)

/-- The correction scan of `dwa_divu`:
`for (i = m; i > 0; i--) if (rem[i+k] != dq[i]) break;` — the largest
`i ∈ [1..m]` where the windows differ, 0 if none. -/
def corrIdx (rem dq : List Nat) (k : Nat) : Nat → Nat
  | 0 => 0
  | i + 1 =>
      if rem.getD (i + 1 + k) 0 = dq.getD (i + 1) 0 then corrIdx rem dq k i
      else i + 1

/-- One iteration (index `k`) of the long-division loop of `dwa_divu`:
estimate `qk` from the two leading divisor digits and three leading remainder
digits, cap at `BASE-1`, build the trial product `dq`, correct `qk` downward
at most once, and subtract `dq` from the remainder window. Returns the
quotient digit and the updated remainder. -/
def divuStep (y : Dwa) (m : Nat) (rem : List Nat) (k : Nat) : Nat × List Nat :=
  let km := k + m
  let y2 := y.getD (m - 1) 0 * BASE + y.getD (m - 2) 0
  let r3 := rem.getD km 0 * (BASE * BASE) + rem.getD (km - 1) 0 * BASE +
    rem.getD (km - 2) 0
  let qk0 := if BASE ≤ r3 / y2 then BASE - 1 else r3 / y2
  let p := prod m y qk0
  let dq := p.1 ++ [p.2]
  let i := corrIdx rem dq k m
  let qk := if rem.getD (i + k) 0 < dq.getD i 0 then qk0 - 1 else qk0
  let p' := prod m y qk
  let dq' := p'.1 ++ [p'.2]
  (qk, rem.take k ++ subAux ((rem.drop k).take (m + 1)) dq' 0 ++
    rem.drop (k + m + 1))

/-- The `for (k = n-m; k >= 0; k--)` loop of `dwa_divu`: `divuGo y m kk`
still has to process positions `k = kk-1, ..., 0`, storing each quotient
digit in `t`. -/
def divuGo (y : Dwa) (m : Nat) : Nat → List Nat → Dwa → List Nat × Dwa
  | 0, rem, t => (rem, t)
  | k + 1, rem, t =>
      let s := divuStep y m rem k
      divuGo y m k s.2 (t.set k s.1)

/-- `dwa_divu` from dwa.c: short division for single-digit divisors (zero
divisor yields the zero value), trivial answer when the divisor is wider than
the dividend, and otherwise the long-division loop; `mod` selects the
remainder. -/
def dwa_divu (x y : Dwa) (mod : Bool) : Dwa :=
  let n := len x
  let m := len y
  if m = 1 then
    (if y.getD 0 0 = 0 then zeroDwa else quot x (y.getD 0 0) mod)
  else if n < m then
    (if mod then x else zeroDwa)
  else
    let rem0 := x.take n ++ [0]
    let r := divuGo y m (n - m + 1) rem0 zeroDwa
    if mod then r.1.take m ++ List.replicate (SIZE - m) 0
    else r.2.take (n - m + 1) ++ List.replicate (SIZE - (n - m + 1)) 0

/-- `dwa_div` from dwa.c: signed division via `dwa_divu` on magnitudes with
sign fixup; the remainder follows the dividend's sign. -/
def dwa_div (x y : Dwa) (mod : Bool) : Dwa :=
  let sx := sign x
  let sy := sign y
  let x' := if sx ≠ 0 then dwa_neg x else x
  let y' := if sy ≠ 0 then dwa_neg y else y
  let t := dwa_divu x' y' mod
  if (mod = false ∧ sx ≠ sy) ∨ (mod = true ∧ sx ≠ 0) then dwa_neg t else t

/-- `dwa_lsh` from dwa.c (shift amounts below the width, as in the claims):
whole-byte shift toward higher indices with zero fill, then a sub-byte
multiply by `2^(n%8)` whose final carry is discarded. -/
def dwa_lsh (x : Dwa) (n : Nat) : Dwa :=
  let t := List.replicate (n / 8) 0 ++ x.take (SIZE - n / 8)
  if 0 < n % 8 then (prod SIZE t (2 ^ (n % 8))).1 else t

/-- `dwa_rshl` from dwa.c: whole-byte shift toward lower indices with zero
fill at the top, then a sub-byte short division by `2^(n%8)`. -/
def dwa_rshl (x : Dwa) (n : Nat) : Dwa :=
  let t := x.drop (n / 8) ++ List.replicate (min (n / 8) SIZE) 0
  if 0 < n % 8 then quot t (2 ^ (n % 8)) false else t

/-- The digit alphabet `"0123456789abcdefghijklmnopqrstuvwxyz"` of dwa.c,
as ASCII codes. -/
def map : List Nat :=
  [48, 49, 50, 51, 52, 53, 54, 55, 56, 57,
   97, 98, 99, 100, 101, 102, 103, 104, 105, 106, 107, 108, 109, 110,
   111, 112, 113, 114, 115, 116, 117, 118, 119, 120, 121, 122]

/-- Loop of `dwa_tostru`: emit `map[x % base]` (computed via `quot` and
`dwa_touint`), divide `x` by `base`, repeat while the quotient is nonzero
(the C code tracks the significant length `j` incrementally; it always equals
`len` of the current quotient).  Digits come out least-significant first.
The fuel `8*SIZE` dominates the iteration count for every base ≥ 2. -/
def tostruGo (base : Nat) : Nat → Dwa → List Nat
  | 0, _ => []
  | fuel + 1, x =>
      let r := dwa_touint (quot x base true)
      let x' := quot x base false
      map.getD r 0 ::
        (if 1 < len x' ∨ x'.getD 0 0 ≠ 0 then tostruGo base fuel x' else [])

/-- `dwa_tostru` from dwa.c: the collected digits, reversed into
most-significant-first order. -/
def dwa_tostru (x : Dwa) (base : Nat) : List Nat :=
  (tostruGo base (8 * SIZE) x).reverse

/-- `dwa_tostr` from dwa.c: prefix `-` and convert the negation when the sign
bit is set (the C code pre-writes `'-'` and overwrites it otherwise). -/
def dwa_tostr (x : Dwa) (base : Nat) : List Nat :=
  if sign x ≠ 0 then 45 :: dwa_tostru (dwa_neg x) base else dwa_tostru x base

/-- `tolower` (C locale) on a byte. -/
def tolowerB (c : Nat) : Nat := if 65 ≤ c ∧ c ≤ 90 then c + 32 else c

/-- `isspace` (C locale) on a byte. -/
def isspaceB (c : Nat) : Bool := c = 32 || (9 ≤ c && c ≤ 13)

/-- `isxdigit` on a byte. -/
def isxdigitB (c : Nat) : Bool :=
  (48 ≤ c && c ≤ 57) || (65 ≤ c && c ≤ 70) || (97 ≤ c && c ≤ 102)

/-- Position of a byte in a list, if present. -/
def idxIn : List Nat → Nat → Option Nat
  | [], _ => none
  | d :: ds, c => if c = d then some 0 else (idxIn ds c).map (· + 1)

/-- `strchr(map, c)` as an index: the NUL terminator is at index
`map.length` (= 36), so `strchr(map, 0)` is never a valid digit. -/
def strchrMap (c : Nat) : Option Nat :=
  if c = 0 then some map.length else idxIn map c

/-- The `valid()` macro of dwa.c:
`(q = strchr(map, tolower(*p))) != NULL && q-map < base`. -/
def validB (base c : Nat) : Bool :=
  match strchrMap (tolowerB c) with
  | none => false
  | some i => i < base

/-- Digit value of a character known to satisfy `valid()`: `q - map`. -/
def digitIdx (c : Nat) : Nat := (strchrMap (tolowerB c)).getD map.length

/-- The `hprefix()` macro of dwa.c:
`p[0]=='0' && (p[1]=='x' || p[1]=='X') && isxdigit(p[2])`; reading past the
end of the list models the NUL terminator. -/
def hexPref (p : List Nat) : Bool :=
  p.getD 0 0 = 48 && (p.getD 1 0 = 120 || p.getD 1 0 = 88) &&
    isxdigitB (p.getD 2 0)

/-- The digit-consuming do-while loop of `dwa_fromstr`; entered only when the
head character satisfies `valid()`.  Note the order of operations from the
source: `prod` multiplies the accumulator in place *before* the carry test, so
on overflow the (truncated) multiplied value is kept and the current character
is not consumed. -/
def scanGo (base : Nat) : List Nat → Dwa → Dwa × List Nat
  | [], t => (t, [])
  | c :: cs, t =>
      let p := prod SIZE t base
      if 0 < p.2 then (p.1, c :: cs)
      else
        let t' := dwa_add p.1 (dwa_fromuint (digitIdx c))
        if validB base (cs.getD 0 0) then scanGo base cs t'
        else (t', cs)

/-- `dwa_fromstr` from dwa.c.  The string is a byte list (no terminator; reads
past the end yield NUL).  Returns the parsed value and the suffix starting at
`*end`. -/
def dwa_fromstr (str : List Nat) (base : Nat) : Dwa × List Nat :=
  let p0 := str.dropWhile (fun c => isspaceB c)
  let s : Bool := p0.getD 0 0 = 45
  let p1 := if p0.getD 0 0 = 45 ∨ p0.getD 0 0 = 43 then p0.drop 1 else p0
  let bp : Nat × List Nat :=
    if base = 0 then
      (if p1.getD 0 0 ≠ 48 then (10, p1)
       else if hexPref p1 then (16, p1.drop 2)
       else (8, p1))
    else if base = 16 ∧ hexPref p1 then (16, p1.drop 2)
    else (base, p1)
  let r : Dwa × List Nat :=
    if validB bp.1 (bp.2.getD 0 0) then scanGo bp.1 bp.2 zeroDwa
    else (zeroDwa, str)
  (if s then dwa_neg r.1 else r.1, r.2)

/-- Digit decomposition of a number into a `SIZE`-digit double word. -/
def natToDwa (v : Nat) : Dwa := (List.range SIZE).map (fun i => v / BASE ^ i % BASE)

/-- Modelled from the spec: dwa.h declares `const dwa_t dwa_umax, dwa_max,
dwa_min` but no initializer appears in the sources; per the specification
these are the "minimum, maximum, and maximum-unsigned representable values
for the configured width".  `dwa_umax` is the maximum unsigned value,
`2^(8*SIZE) - 1`. -/
def dwa_umax : Dwa := natToDwa (DMOD - 1)

/-- Modelled from the spec (see `dwa_umax`): the maximum two's-complement
signed value, `2^(8*SIZE-1) - 1`. -/
def dwa_max : Dwa := natToDwa (DMOD / 2 - 1)

/-- Modelled from the spec (see `dwa_umax`): the minimum two's-complement
signed value, whose digit pattern is that of `2^(8*SIZE-1)`. -/
def dwa_min : Dwa := natToDwa (DMOD / 2)

/-- Two's-complement (signed) reading of a double word — the meaning function
used by the specification for signed operations. -/
def sval (x : Dwa) : Int :=
  if sign x ≠ 0 then (val x : Int) - (DMOD : Int) else (val x : Int)

/-- Wrapping of a mathematical integer into the signed double-word range. -/
def wrapS64 (i : Int) : Int := ((i + 2 ^ 63) % (DMOD : Int)) - 2 ^ 63

/-- Mathematical Horner accumulation `v := v*base + digit` over a list of
digit characters — the value the specification ascribes to `dwa_fromstr`. -/
def hornerScan (b : Nat) : Nat → List Nat → Nat
  | v, [] => v
  | v, c :: cs => hornerScan b (v * b + digitIdx c) cs

/-- The accumulator actually computed by the scan loop of `dwa_fromstr`:
each step wraps modulo `2^(8*SIZE)` (the in-place `prod` then `add`). -/
def accGo (b : Nat) : Nat → List Nat → Nat
  | v, [] => v
  | v, c :: cs => accGo b ((v * b + digitIdx c) % DMOD) cs

/-- Pure digit decomposition mirrored by the loop of `dwa_tostru`: digit
characters of `n` in base `b`, least significant first. -/
def digitsGo (b : Nat) : Nat → Nat → List Nat
  | 0, _ => []
  | fuel + 1, n =>
      map.getD (n % b) 0 ::
        (if n / b ≠ 0 then digitsGo b fuel (n / b) else [])


end Dwa

namespace Dwa

theorem val_nil : val [] = 0 := rfl

theorem val_cons (d : Nat) (ds : List Nat) : val (d :: ds) = d + BASE * val ds := rfl

theorem val_append (a b : List Nat) :
    val (a ++ b) = val a + BASE ^ a.length * val b := by
  induction a with
  | nil => simp [val]
  | cons d ds ih =>
      simp only [List.cons_append, val_cons, ih, List.length_cons]
      ring

theorem val_replicate_zero (n : Nat) : val (List.replicate n 0) = 0 := by
  induction n with
  | zero => rfl
  | succ n ih => simp [List.replicate_succ, val_cons, ih]

theorem val_lt (x : List Nat) (h : ∀ d ∈ x, d < BASE) :
    val x < BASE ^ x.length := by
  induction x with
  | nil => simp [val]
  | cons d ds ih =>
      have hd : d < BASE := h d (List.mem_cons_self d ds)
      have hds : val ds < BASE ^ ds.length := ih (fun e he => h e (List.mem_cons_of_mem d he))
      simp only [val_cons, List.length_cons, pow_succ]
      calc d + BASE * val ds < BASE + BASE * val ds := by omega
        _ = BASE * (val ds + 1) := by ring
        _ ≤ BASE * BASE ^ ds.length := by
              exact Nat.mul_le_mul_left _ (by omega)
        _ = BASE ^ ds.length * BASE := by ring

theorem val_take_add_drop (x : List Nat) (k : Nat) :
    val x = val (x.take k) + BASE ^ (x.take k).length * val (x.drop k) := by
  conv_lhs => rw [← List.take_append_drop k x]
  exact val_append _ _

theorem length_take_of_le {x : List Nat} {k : Nat} (h : k ≤ x.length) :
    (x.take k).length = k := by
  simp [List.length_take, Nat.min_eq_left h]

/-- Digit extraction: for a well-formed digit list, digit `i` is
`val x / BASE^i % BASE`. -/
theorem getD_eq_val_div_mod (x : List Nat) (h : ∀ d ∈ x, d < BASE) (i : Nat) :
    x.getD i 0 = val x / BASE ^ i % BASE := by
  induction x generalizing i with
  | nil => simp [val, List.getD]
  | cons d ds ih =>
      have hd : d < BASE := h d (List.mem_cons_self d ds)
      cases i with
      | zero =>
          simp only [List.getD_cons_zero, pow_zero, Nat.div_one, val_cons]
          rw [Nat.add_mul_mod_self_left, Nat.mod_eq_of_lt hd]
      | succ i =>
          have := ih (fun e he => h e (List.mem_cons_of_mem d he)) i
          simp only [List.getD_cons_succ, this, val_cons, pow_succ]
          congr 1
          rw [Nat.mul_comm (BASE ^ i) BASE, ← Nat.div_div_eq_div_mul]
          congr 1
          have hb : 0 < BASE := by norm_num [BASE]
          rw [Nat.add_mul_div_left _ _ hb, Nat.div_eq_of_lt hd]
          omega

/-- A well-formed digit list is determined by its value. -/
theorem val_inj {x y : List Nat} (hx : ∀ d ∈ x, d < BASE) (hy : ∀ d ∈ y, d < BASE)
    (hlen : x.length = y.length) (hval : val x = val y) : x = y := by
  induction x generalizing y with
  | nil => cases y with
    | nil => rfl
    | cons e es => simp at hlen
  | cons d ds ih =>
      cases y with
      | nil => simp at hlen
      | cons e es =>
          have hd : d < BASE := hx d (List.mem_cons_self d ds)
          have he : e < BASE := hy e (List.mem_cons_self e es)
          simp only [val_cons] at hval
          have hd' : (d + BASE * val ds) % BASE = d := by
            rw [Nat.add_mul_mod_self_left, Nat.mod_eq_of_lt hd]
          have he' : (e + BASE * val es) % BASE = e := by
            rw [Nat.add_mul_mod_self_left, Nat.mod_eq_of_lt he]
          have hde : d = e := by rw [← hd', ← he', hval]
          subst hde
          have hmul : BASE * val ds = BASE * val es := by omega
          have hvv : val ds = val es :=
            Nat.eq_of_mul_eq_mul_left (by norm_num [BASE]) hmul
          have := ih (fun a ha => hx a (List.mem_cons_of_mem d ha))
            (fun a ha => hy a (List.mem_cons_of_mem d ha))
            (by simpa using hlen) hvv
          rw [this]

/-- Digits above index `k` vanish when the value is below `BASE^k`. -/
theorem getD_eq_zero_of_val_lt {x : List Nat} (h : ∀ d ∈ x, d < BASE)
    {k i : Nat} (hv : val x < BASE ^ k) (hi : k ≤ i) : x.getD i 0 = 0 := by
  rw [getD_eq_val_div_mod x h i]
  have : val x < BASE ^ i := lt_of_lt_of_le hv (Nat.pow_le_pow_right (by norm_num [BASE]) hi)
  rw [Nat.div_eq_of_lt this]
  simp

theorem val_drop_eq_zero_of_val_lt {x : List Nat} (h : ∀ d ∈ x, d < BASE)
    {k : Nat} (hv : val x < BASE ^ k) : val (x.drop k) = 0 := by
  rcases le_or_lt x.length k with hk | hk
  · rw [List.drop_eq_nil_of_le hk]; rfl
  · have h1 := val_take_add_drop x k
    have h2 : (x.take k).length = k := length_take_of_le (le_of_lt hk)
    rw [h2] at h1
    by_contra hne
    have : 1 ≤ val (x.drop k) := Nat.one_le_iff_ne_zero.mpr hne
    have : BASE ^ k ≤ BASE ^ k * val (x.drop k) := Nat.le_mul_of_pos_right _ (by omega)
    omega

/-- Truncating a well-formed digit list takes the value modulo `BASE^k`. -/
theorem val_take_of_wf {x : List Nat} (h : ∀ d ∈ x, d < BASE) (k : Nat) :
    val (x.take k) = val x % BASE ^ k := by
  rcases le_or_lt x.length k with hk | hk
  · rw [List.take_of_length_le hk]
    have : val x < BASE ^ k :=
      lt_of_lt_of_le (val_lt x h) (Nat.pow_le_pow_right (by norm_num [BASE]) hk)
    exact (Nat.mod_eq_of_lt this).symm
  · have h1 := val_take_add_drop x k
    have h2 : (x.take k).length = k := length_take_of_le (le_of_lt hk)
    rw [h2] at h1
    have h3 : val (x.take k) < BASE ^ k := by
      have hwf : ∀ d ∈ x.take k, d < BASE := fun d hd => h d (List.mem_of_mem_take hd)
      have := val_lt (x.take k) hwf
      rwa [h2] at this
    rw [h1, Nat.add_mul_mod_self_left, Nat.mod_eq_of_lt h3]

/-- Digit-carry step: a low digit plus `BASE` times a reduced high part is the
reduction of the whole number. -/
theorem add_base_mul_mod (r k M : Nat) (hr : r < BASE) :
    r + BASE * (k % M) = (r + BASE * k) % (BASE * M) := by
  rcases Nat.eq_zero_or_pos M with hM | hM
  · subst hM; simp
  · have hk : k % M + M * (k / M) = k := Nat.mod_add_div k M
    have h1 : r + BASE * k = (r + BASE * (k % M)) + (BASE * M) * (k / M) := by
      calc r + BASE * k = r + BASE * (k % M + M * (k / M)) := by rw [hk]
        _ = (r + BASE * (k % M)) + (BASE * M) * (k / M) := by ring
    have h2 : r + BASE * (k % M) < BASE * M := by
      have : k % M < M := Nat.mod_lt _ hM
      have : k % M + 1 ≤ M := this
      calc r + BASE * (k % M) < BASE + BASE * (k % M) := by omega
        _ = BASE * (k % M + 1) := by ring
        _ ≤ BASE * M := Nat.mul_le_mul_left _ this
    rw [h1, Nat.add_mul_mod_self_left, Nat.mod_eq_of_lt h2]

theorem BASE_pos : 0 < BASE := by norm_num [BASE]

theorem val_zeroDwa : val zeroDwa = 0 := val_replicate_zero SIZE

theorem wf_zeroDwa : Wf zeroDwa := by
  constructor
  · simp [zeroDwa]
  · intro d hd
    have := List.eq_of_mem_replicate hd
    subst this
    exact BASE_pos

/-- Value of the add-with-carry loop. -/
theorem adcAux_spec (x : List Nat) : ∀ (y : List Nat) (c : Nat),
    x.length = y.length → (∀ d ∈ x, d < BASE) → (∀ d ∈ y, d < BASE) → c ≤ 1 →
    val (adcAux x y c) = (c + val x + val y) % BASE ^ x.length ∧
      (∀ d ∈ adcAux x y c, d < BASE) ∧ (adcAux x y c).length = x.length := by
  induction x with
  | nil =>
      intro y c hlen _ _ _
      cases y with
      | nil => simp [adcAux, val, Nat.mod_one]
      | cons e es => simp at hlen
  | cons a as ih =>
      intro y c hlen hx hy hc
      cases y with
      | nil => simp at hlen
      | cons b bs =>
          have ha : a < BASE := hx a (List.mem_cons_self a as)
          have hb : b < BASE := hy b (List.mem_cons_self b bs)
          have hB : BASE = 256 := rfl
          have hc' : (c + a + b) / BASE ≤ 1 := by
            rw [hB] at ha hb ⊢
            omega
          obtain ⟨ihv, ihw, ihl⟩ := ih bs ((c + a + b) / BASE)
            (by simpa using hlen)
            (fun d hd => hx d (List.mem_cons_of_mem a hd))
            (fun d hd => hy d (List.mem_cons_of_mem b hd)) hc'
          refine ⟨?_, ?_, ?_⟩
          · simp only [adcAux, val_cons, ihv]
            rw [add_base_mul_mod _ _ _ (Nat.mod_lt _ BASE_pos)]
            have h2 : BASE * BASE ^ as.length = BASE ^ (a :: as).length := by
              simp [List.length_cons, pow_succ]; ring
            rw [h2]
            congr 1
            rw [hB]
            omega
          · intro d hd
            simp only [adcAux] at hd
            rcases List.mem_cons.mp hd with h | h
            · subst h; exact Nat.mod_lt _ BASE_pos
            · exact ihw d h
          · simp [adcAux, ihl]

theorem dwa_addu_spec {x y : Dwa} (hx : Wf x) (hy : Wf y) :
    val (dwa_addu x y) = (val x + val y) % DMOD ∧ Wf (dwa_addu x y) := by
  obtain ⟨hxl, hxw⟩ := hx
  obtain ⟨hyl, hyw⟩ := hy
  obtain ⟨hv, hw, hl⟩ := adcAux_spec x y 0 (by omega) hxw hyw (by omega)
  refine ⟨?_, ?_, ?_⟩
  · rw [dwa_addu, hv, hxl]
    show (0 + val x + val y) % DMOD = (val x + val y) % DMOD
    rw [Nat.zero_add]
  · rw [dwa_addu, hl, hxl]
  · exact hw

/-- Value of the negation loop. -/
theorem negAux_spec (x : List Nat) : ∀ (c : Nat),
    (∀ d ∈ x, d < BASE) → c ≤ 1 →
    val (negAux x c) = (c + (BASE ^ x.length - 1) - val x) % BASE ^ x.length ∧
      (∀ d ∈ negAux x c, d < BASE) ∧ (negAux x c).length = x.length := by
  induction x with
  | nil => intro c _ hc; simp [negAux, val, Nat.mod_one]
  | cons a as ih =>
      intro c hx hc
      have ha : a < BASE := hx a (List.mem_cons_self a as)
      have hB : BASE = 256 := rfl
      have hc' : (c + (BASE - 1 - a)) / BASE ≤ 1 := by
        rw [hB] at ha ⊢
        omega
      obtain ⟨ihv, ihw, ihl⟩ := ih ((c + (BASE - 1 - a)) / BASE)
        (fun d hd => hx d (List.mem_cons_of_mem a hd)) hc'
      have hvas : val as < BASE ^ as.length :=
        val_lt as (fun d hd => hx d (List.mem_cons_of_mem a hd))
      refine ⟨?_, ?_, ?_⟩
      · simp only [negAux, val_cons, ihv]
        rw [add_base_mul_mod _ _ _ (Nat.mod_lt _ BASE_pos)]
        have h2 : BASE * BASE ^ as.length = BASE ^ (a :: as).length := by
          simp [List.length_cons, pow_succ]; ring
        rw [h2]
        congr 1
        have hpow : BASE ^ (a :: as).length = BASE * BASE ^ as.length := h2.symm
        have h1 : 1 ≤ BASE ^ as.length := Nat.one_le_pow _ _ BASE_pos
        rw [hpow]
        rw [hB] at ha hvas h1 ⊢
        omega
      · intro d hd
        simp only [negAux] at hd
        rcases List.mem_cons.mp hd with h | h
        · subst h; exact Nat.mod_lt _ BASE_pos
        · exact ihw d h
      · simp [negAux, ihl]

theorem dwa_neg_spec {x : Dwa} (hx : Wf x) :
    val (dwa_neg x) = (DMOD - val x) % DMOD ∧ Wf (dwa_neg x) := by
  obtain ⟨hxl, hxw⟩ := hx
  obtain ⟨hv, hw, hl⟩ := negAux_spec x 1 hxw (by omega)
  have hvx : val x < BASE ^ x.length := val_lt x hxw
  refine ⟨?_, ?_, ?_⟩
  · rw [dwa_neg, hv, hxl]
    show (1 + (DMOD - 1) - val x) % DMOD = (DMOD - val x) % DMOD
    have hD : 1 ≤ DMOD := Nat.one_le_pow _ _ BASE_pos
    have hnum : 1 + (DMOD - 1) - val x = DMOD - val x := by omega
    rw [hnum]
  · rw [dwa_neg, hl, hxl]
  · exact hw

theorem val_lt_DMOD {x : Dwa} (hx : Wf x) : val x < DMOD := by
  have := val_lt x hx.2
  rw [hx.1] at this
  exact this

/-- For a well-formed value the sign bit reads off the top of the value. -/
theorem sign_spec {x : Dwa} (hx : Wf x) : sign x = val x / 2 ^ 63 := by
  obtain ⟨hxl, hxw⟩ := hx
  have h7 := getD_eq_val_div_mod x hxw 7
  show x.getD (SIZE - 1) 0 / 128 = val x / 2 ^ 63
  have hs : SIZE - 1 = 7 := rfl
  rw [hs, h7]
  have hB : BASE ^ 7 = 2 ^ 56 := by norm_num [BASE]
  rw [hB]
  have hv : val x < 2 ^ 64 := by
    have := val_lt x hxw
    rw [hxl] at this
    exact this
  have h1 : val x / 2 ^ 56 < 2 ^ 8 := by
    rw [Nat.div_lt_iff_lt_mul (by norm_num)]
    calc val x < 2 ^ 64 := hv
      _ = 2 ^ 8 * 2 ^ 56 := by norm_num
  have h2 : val x / 2 ^ 56 % BASE = val x / 2 ^ 56 :=
    Nat.mod_eq_of_lt (by norm_num [BASE] at h1 ⊢; exact h1)
  rw [h2]
  have h3 : (128 : Nat) = 2 ^ 7 := by norm_num
  rw [h3, Nat.div_div_eq_div_mul]
  norm_num

theorem sign_eq_zero_iff {x : Dwa} (hx : Wf x) : sign x = 0 ↔ val x < 2 ^ 63 := by
  rw [sign_spec hx]
  constructor
  · intro h
    by_contra hlt
    push_neg at hlt
    have : 1 ≤ val x / 2 ^ 63 := (Nat.one_le_div_iff (by norm_num)).mpr hlt
    omega
  · intro h
    exact Nat.div_eq_of_lt h

theorem sign_le_one {x : Dwa} (hx : Wf x) : sign x ≤ 1 := by
  rw [sign_spec hx]
  have hv : val x < 2 ^ 64 := val_lt_DMOD hx
  have : val x / 2 ^ 63 < 2 := by
    rw [Nat.div_lt_iff_lt_mul (by norm_num)]
    calc val x < 2 ^ 64 := hv
      _ = 2 * 2 ^ 63 := by norm_num
  omega

theorem fromuintGo_spec (cap : Nat) : ∀ v : Nat,
    val (fromuintGo v cap) = v % BASE ^ cap ∧
      (∀ d ∈ fromuintGo v cap, d < BASE) ∧ (fromuintGo v cap).length = cap := by
  induction cap with
  | zero => intro v; simp [fromuintGo, val, Nat.mod_one]
  | succ cap ih =>
      intro v
      by_cases h : 0 < v / BASE
      · obtain ⟨ihv, ihw, ihl⟩ := ih (v / BASE)
        refine ⟨?_, ?_, ?_⟩
        · simp only [fromuintGo, if_pos h, val_cons, ihv]
          rw [add_base_mul_mod _ _ _ (Nat.mod_lt _ BASE_pos)]
          rw [Nat.mod_add_div]
          congr 1
          rw [pow_succ]
          ring
        · intro d hd
          simp only [fromuintGo, if_pos h] at hd
          rcases List.mem_cons.mp hd with h' | h'
          · subst h'; exact Nat.mod_lt _ BASE_pos
          · exact ihw d h'
        · simp [fromuintGo, if_pos h, ihl]
      · have hv : v < BASE := by
          by_contra hge
          push_neg at hge
          exact h ((Nat.one_le_div_iff BASE_pos).mpr hge)
        refine ⟨?_, ?_, ?_⟩
        · simp only [fromuintGo, if_neg h, val_cons, val_replicate_zero,
            Nat.mul_zero, Nat.add_zero]
          rw [Nat.mod_eq_of_lt hv, Nat.mod_eq_of_lt]
          calc v < BASE := hv
            _ ≤ BASE ^ (cap + 1) := Nat.le_self_pow (by omega) _
        · intro d hd
          simp only [fromuintGo, if_neg h] at hd
          rcases List.mem_cons.mp hd with h' | h'
          · subst h'; exact Nat.mod_lt _ BASE_pos
          · have := List.eq_of_mem_replicate h'
            subst this; exact BASE_pos
        · simp [fromuintGo, if_neg h]

theorem dwa_fromuint_spec (v : Nat) :
    val (dwa_fromuint v) = v % DMOD ∧ Wf (dwa_fromuint v) := by
  obtain ⟨hv, hw, hl⟩ := fromuintGo_spec SIZE v
  exact ⟨hv, hl, hw⟩

theorem val_dwa_fromuint {v : Nat} (h : v < DMOD) : val (dwa_fromuint v) = v := by
  rw [(dwa_fromuint_spec v).1, Nat.mod_eq_of_lt h]

theorem val_take_succ (x : List Nat) : ∀ i : Nat,
    val (x.take (i + 1)) = val (x.take i) + BASE ^ i * x.getD i 0 := by
  induction x with
  | nil => intro i; simp [val]
  | cons d ds ih =>
      intro i
      cases i with
      | zero => simp [val_cons, val_nil]
      | succ i =>
          show val (d :: ds.take (i + 1)) = val (d :: ds.take i) +
            BASE ^ (i + 1) * ds.getD i 0
          rw [val_cons, val_cons, ih i, pow_succ]
          ring

theorem touintGo_spec (x : Dwa) : ∀ (i : Nat) (v : Nat), v < UMOD →
    touintGo x i v = (v * BASE ^ i + val (x.take i)) % UMOD := by
  intro i
  induction i with
  | zero =>
      intro v hv
      simp [touintGo, val, Nat.mod_eq_of_lt hv]
  | succ i ih =>
      intro v hv
      show touintGo x i ((v * BASE + x.getD i 0) % UMOD) = _
      rw [ih _ (Nat.mod_lt _ (by norm_num [UMOD]))]
      have h1 := ((Nat.mod_modEq (v * BASE + x.getD i 0) UMOD).mul_right
        (BASE ^ i)).add_right (val (x.take i))
      rw [Nat.ModEq] at h1
      rw [h1, val_take_succ]
      congr 1
      ring

/-- `dwa_touint` truncates the value to the native unsigned width. -/
theorem dwa_touint_spec {x : Dwa} (hx : Wf x) : dwa_touint x = val x % UMOD := by
  have h := touintGo_spec x (SIZE / 2) 0 (by norm_num [UMOD])
  rw [dwa_touint, h, Nat.zero_mul, Nat.zero_add]
  rw [val_take_of_wf hx.2]
  have hU : BASE ^ (SIZE / 2) = UMOD := by norm_num [BASE, SIZE, UMOD]
  rw [hU]
  exact Nat.mod_mod_of_dvd _ dvd_rfl

theorem val_dwa_neg {x : Dwa} (hx : Wf x) :
    val (dwa_neg x) = (DMOD - val x) % DMOD := (dwa_neg_spec hx).1

theorem wf_dwa_neg {x : Dwa} (hx : Wf x) : Wf (dwa_neg x) := (dwa_neg_spec hx).2

theorem val_dwa_neg_neg {x : Dwa} (hx : Wf x) :
    val (dwa_neg (dwa_neg x)) = val x := by
  rw [val_dwa_neg (wf_dwa_neg hx), val_dwa_neg hx]
  have hv : val x < DMOD := val_lt_DMOD hx
  rcases Nat.eq_zero_or_pos (val x) with h0 | h0
  · rw [h0]
    simp
  · have h1 : (DMOD - val x) % DMOD = DMOD - val x := Nat.mod_eq_of_lt (by omega)
    rw [h1]
    have h2 : DMOD - (DMOD - val x) = val x := by omega
    rw [h2, Nat.mod_eq_of_lt hv]

end Dwa

namespace Dwa

theorem toLong_of_lt {u : Nat} (h : u < 2 ^ 31) : toLong u = (u : Int) := by
  have hu : u % UMOD = u := Nat.mod_eq_of_lt (by
    have : (2 : Nat) ^ 31 < UMOD := by norm_num [UMOD]
    omega)
  have hcast : ((u % UMOD : Nat) : Int) = ((u : Nat) : Int) := by rw [hu]
  rw [toLong, hu, if_pos h]
  exact_mod_cast hcast

theorem toLong_of_ge {u : Nat} (h1 : 2 ^ 31 ≤ u) (h2 : u < UMOD) :
    toLong u = (u : Int) - (UMOD : Int) := by
  have hu : u % UMOD = u := Nat.mod_eq_of_lt h2
  have hcast : ((u % UMOD : Nat) : Int) = ((u : Nat) : Int) := by rw [hu]
  have hmc : ((u : Int) % (UMOD : Int)) = (u : Int) := by exact_mod_cast hcast
  rw [toLong, hu, if_neg (by omega), hmc]

/-- C6, first half: unsigned round-trip. -/
theorem touint_fromuint {v : Nat} (hv : v < UMOD) :
    dwa_touint (dwa_fromuint v) = v := by
  rw [dwa_touint_spec (dwa_fromuint_spec v).2, (dwa_fromuint_spec v).1]
  have hUD : v % DMOD = v := Nat.mod_eq_of_lt (by
    have : UMOD < DMOD := by norm_num [UMOD, DMOD, BASE, SIZE]
    omega)
  rw [hUD, Nat.mod_eq_of_lt hv]

/-- C6, second half: signed round-trip, including `LONG_MIN`. -/
theorem toint_fromint {v : Int} (h1 : -(2 ^ 31) ≤ v) (h2 : v < 2 ^ 31) :
    dwa_toint (dwa_fromint v) = v := by
  by_cases hneg : v < 0
  · -- negative: dwa_fromint v = dwa_neg (dwa_fromuint a)
    set a : Nat := if v = -(2 ^ 31) then 2 ^ 31 else (-v).toNat with ha
    have hav : (a : Int) = -v := by
      rw [ha]
      split
      · rename_i hmin
        rw [hmin]
        norm_num
      · exact Int.toNat_of_nonneg (by omega)
    have ha1 : 1 ≤ a := by
      have : (0 : Int) < -v := by omega
      omega
    have ha2 : a ≤ 2 ^ 31 := by
      have : (a : Int) ≤ 2 ^ 31 := by omega
      exact_mod_cast this
    have haD : a < DMOD := by
      have : (2 : Nat) ^ 31 < DMOD := by norm_num [DMOD, BASE, SIZE]
      omega
    have hfu := dwa_fromuint_spec a
    have hvalfu : val (dwa_fromuint a) = a := by
      rw [hfu.1, Nat.mod_eq_of_lt haD]
    have hx : dwa_fromint v = dwa_neg (dwa_fromuint a) := by
      rw [dwa_fromint, if_pos hneg, ha]
    have hwfx : Wf (dwa_fromint v) := by
      rw [hx]; exact wf_dwa_neg hfu.2
    have hvalx : val (dwa_fromint v) = DMOD - a := by
      rw [hx, val_dwa_neg hfu.2, hvalfu]
      exact Nat.mod_eq_of_lt (by omega)
    have hsg : sign (dwa_fromint v) = 1 := by
      rw [sign_spec hwfx, hvalx]
      have hlo : 2 ^ 63 * 1 ≤ DMOD - a := by norm_num [DMOD, BASE, SIZE]; omega
      have hhi : DMOD - a < 2 ^ 63 * 2 := by norm_num [DMOD, BASE, SIZE]; omega
      omega
    have hnegx : val (dwa_neg (dwa_fromint v)) = a := by
      rw [hx, val_dwa_neg_neg hfu.2, hvalfu]
    rw [dwa_toint, if_pos (by rw [hsg]; omega)]
    rw [dwa_touint_spec (wf_dwa_neg hwfx), hnegx]
    have haU : a % UMOD = a := Nat.mod_eq_of_lt (by
      have : (2 : Nat) ^ 31 < UMOD := by norm_num [UMOD]
      omega)
    rw [haU]
    have hU : (UMOD : Int) = 2 ^ 32 := by norm_num [UMOD]
    rcases lt_or_le a (2 ^ 31) with hlt | hge
    · rw [toLong_of_lt hlt, wrapLong, hU]
      have hlt' : (a : Int) < 2 ^ 31 := by exact_mod_cast hlt
      have ha1' : (1 : Int) ≤ (a : Int) := by exact_mod_cast ha1
      omega
    · rw [toLong_of_ge hge (by norm_num [UMOD]; omega), wrapLong, hU]
      have hge' : (2 : Int) ^ 31 ≤ (a : Int) := by exact_mod_cast hge
      have ha2' : (a : Int) ≤ 2 ^ 31 := by exact_mod_cast ha2
      omega
  · -- nonnegative
    push_neg at hneg
    have hx : dwa_fromint v = dwa_fromuint v.toNat := by
      rw [dwa_fromint, if_neg (by omega)]
    have hvt : (v.toNat : Int) = v := Int.toNat_of_nonneg hneg
    have hvD : v.toNat < DMOD := by
      have : (2 : Nat) ^ 31 < DMOD := by norm_num [DMOD, BASE, SIZE]
      have : v.toNat < 2 ^ 31 := by omega
      omega
    have hfu := dwa_fromuint_spec v.toNat
    have hvalx : val (dwa_fromint v) = v.toNat := by
      rw [hx, hfu.1, Nat.mod_eq_of_lt hvD]
    have hwfx : Wf (dwa_fromint v) := by rw [hx]; exact hfu.2
    have hsg : sign (dwa_fromint v) = 0 := by
      rw [sign_spec hwfx, hvalx]
      apply Nat.div_eq_of_lt
      have : (2 : Nat) ^ 31 ≤ 2 ^ 63 := by norm_num
      omega
    rw [dwa_toint, if_neg (by rw [hsg]; omega)]
    rw [dwa_touint_spec hwfx, hvalx]
    have hvU : v.toNat % UMOD = v.toNat := Nat.mod_eq_of_lt (by
      have : (2 : Nat) ^ 31 < UMOD := by norm_num [UMOD]
      omega)
    rw [hvU, toLong_of_lt (by omega)]
    exact hvt

/-- Full characterization of the `prod` loop. -/
theorem prodAux_spec (y : Nat) (hy : y < BASE) : ∀ (l : List Nat) (c : Nat),
    (∀ d ∈ l, d < BASE) →
    val (prodAux y l c).1 + BASE ^ l.length * (prodAux y l c).2 = c + y * val l ∧
      (∀ d ∈ (prodAux y l c).1, d < BASE) ∧ (prodAux y l c).1.length = l.length := by
  intro l
  induction l with
  | nil => intro c _; simp [prodAux, val]
  | cons d ds ih =>
      intro c hw
      obtain ⟨ihv, ihw, ihl⟩ := ih ((c + d * y) / BASE)
        (fun e he => hw e (List.mem_cons_of_mem d he))
      refine ⟨?_, ?_, ?_⟩
      · show ((c + d * y) % BASE) + BASE * val (prodAux y ds ((c + d * y) / BASE)).1 +
          BASE ^ (d :: ds).length * (prodAux y ds ((c + d * y) / BASE)).2 =
          c + y * val (d :: ds)
        have hlen : (d :: ds).length = ds.length + 1 := rfl
        rw [hlen, pow_succ]
        calc (c + d * y) % BASE + BASE * val (prodAux y ds ((c + d * y) / BASE)).1 +
              BASE ^ ds.length * BASE * (prodAux y ds ((c + d * y) / BASE)).2
            = (c + d * y) % BASE +
              BASE * (val (prodAux y ds ((c + d * y) / BASE)).1 +
                BASE ^ ds.length * (prodAux y ds ((c + d * y) / BASE)).2) := by ring
          _ = (c + d * y) % BASE + BASE * ((c + d * y) / BASE + y * val ds) := by
              rw [ihv]
          _ = ((c + d * y) % BASE + BASE * ((c + d * y) / BASE)) +
              BASE * (y * val ds) := by ring
          _ = (c + d * y) + BASE * (y * val ds) := by rw [Nat.mod_add_div]
          _ = c + y * (d + BASE * val ds) := by ring
      · intro e he
        rcases List.mem_cons.mp he with h | h
        · subst h; exact Nat.mod_lt _ BASE_pos
        · exact ihw e h
      · show (prodAux y ds ((c + d * y) / BASE)).1.length + 1 = ds.length + 1
        rw [ihl]

/-- The carry returned by `prod` is the overflow of the product past `n`
digits. -/
theorem prodAux_snd (y : Nat) (hy : y < BASE) (l : List Nat) (c : Nat)
    (hw : ∀ d ∈ l, d < BASE) :
    (prodAux y l c).2 = (c + y * val l) / BASE ^ l.length := by
  obtain ⟨hv, hww, hl⟩ := prodAux_spec y hy l c hw
  have hlt : val (prodAux y l c).1 < BASE ^ l.length := by
    have := val_lt (prodAux y l c).1 hww
    rwa [hl] at this
  rw [← hv, Nat.add_mul_div_left _ _ (Nat.pos_pow_of_pos _ BASE_pos)]
  rw [Nat.div_eq_of_lt hlt, Nat.zero_add]

theorem prodAux_fst (y : Nat) (hy : y < BASE) (l : List Nat) (c : Nat)
    (hw : ∀ d ∈ l, d < BASE) :
    val (prodAux y l c).1 = (c + y * val l) % BASE ^ l.length := by
  obtain ⟨hv, hww, hl⟩ := prodAux_spec y hy l c hw
  have hlt : val (prodAux y l c).1 < BASE ^ l.length := by
    have := val_lt (prodAux y l c).1 hww
    rwa [hl] at this
  rw [← hv, Nat.add_mul_mod_self_left, Nat.mod_eq_of_lt hlt]

/-- Full characterization of the short-division loop (the list argument is
the digit array reversed, most significant digit first). -/
theorem quotAux_spec (y : Nat) (hy : 0 < y) : ∀ (l : List Nat) (c : Nat),
    c < y → (∀ d ∈ l, d < BASE) →
    val (quotAux y l c).1.reverse = (c * BASE ^ l.length + val l.reverse) / y ∧
      (quotAux y l c).2 = (c * BASE ^ l.length + val l.reverse) % y ∧
      (∀ d ∈ (quotAux y l c).1, d < BASE) ∧
      (quotAux y l c).1.length = l.length := by
  intro l
  induction l with
  | nil =>
      intro c hc _
      simp [quotAux, val, Nat.mod_eq_of_lt hc, Nat.div_eq_of_lt hc]
  | cons d ds ih =>
      intro c hc hw
      have hd : d < BASE := hw d (List.mem_cons_self d ds)
      have hc' : (c * BASE + d) % y < y := Nat.mod_lt _ hy
      obtain ⟨ihv, ihm, ihw, ihl⟩ := ih ((c * BASE + d) % y) hc'
        (fun e he => hw e (List.mem_cons_of_mem d he))
      have hq1 : (c * BASE + d) / y < BASE := by
        rw [Nat.div_lt_iff_lt_mul hy]
        calc c * BASE + d < c * BASE + BASE := by omega
          _ = (c + 1) * BASE := by ring
          _ ≤ y * BASE := Nat.mul_le_mul_right _ (by omega)
          _ = BASE * y := by ring
      have hsplit : c * BASE + d =
          y * ((c * BASE + d) / y) + (c * BASE + d) % y := (Nat.div_add_mod _ _).symm
      have hrev : val (d :: ds).reverse = val ds.reverse + BASE ^ ds.length * d := by
        rw [List.reverse_cons, val_append, List.length_reverse]
        simp [val_cons, val_nil]
      have hnum : c * BASE ^ (d :: ds).length + val (d :: ds).reverse =
          ((c * BASE + d) % y * BASE ^ ds.length + val ds.reverse) +
            y * ((c * BASE + d) / y * BASE ^ ds.length) := by
        rw [hrev]
        have : (d :: ds).length = ds.length + 1 := rfl
        rw [this, pow_succ]
        calc c * (BASE ^ ds.length * BASE) + (val ds.reverse + BASE ^ ds.length * d)
            = (c * BASE + d) * BASE ^ ds.length + val ds.reverse := by ring
          _ = (y * ((c * BASE + d) / y) + (c * BASE + d) % y) * BASE ^ ds.length +
              val ds.reverse := by rw [← hsplit]
          _ = ((c * BASE + d) % y * BASE ^ ds.length + val ds.reverse) +
              y * ((c * BASE + d) / y * BASE ^ ds.length) := by ring
      refine ⟨?_, ?_, ?_, ?_⟩
      · show val (((c * BASE + d) / y :: (quotAux y ds ((c * BASE + d) % y)).1)).reverse = _
        rw [hnum, Nat.add_mul_div_left _ _ hy]
        rw [List.reverse_cons, val_append, List.length_reverse, ihl, ihv]
        simp only [val_cons, val_nil, Nat.mul_zero, Nat.add_zero]
        ring
      · show (quotAux y ds ((c * BASE + d) % y)).2 = _
        rw [hnum, Nat.add_mul_mod_self_left, ihm]
      · intro e he
        rcases List.mem_cons.mp he with h | h
        · subst h; exact hq1
        · exact ihw e h
      · show (quotAux y ds ((c * BASE + d) % y)).1.length + 1 = ds.length + 1
        rw [ihl]

/-- `quot` computes the quotient by a single nonzero digit. -/
theorem quot_div_spec {x : Dwa} (hx : Wf x) {y : Nat} (hy : 0 < y) :
    val (quot x y false) = val x / y ∧ Wf (quot x y false) := by
  obtain ⟨hv, _, hw, hl⟩ := quotAux_spec y hy x.reverse 0 hy
    (fun d hd => hx.2 d (List.mem_reverse.mp hd))
  constructor
  · show val (quotAux y x.reverse 0).1.reverse = val x / y
    rw [hv, List.reverse_reverse, Nat.zero_mul, Nat.zero_add]
  · constructor
    · show (quotAux y x.reverse 0).1.reverse.length = SIZE
      rw [List.length_reverse, hl, List.length_reverse, hx.1]
    · intro d hd
      exact hw d (List.mem_reverse.mp hd)

/-- `quot` with `mod` set returns the remainder by a single digit in the
low digit. -/
theorem quot_mod_spec {x : Dwa} (hx : Wf x) {y : Nat} (hy : 0 < y)
    (hyB : y ≤ BASE) :
    val (quot x y true) = val x % y ∧ Wf (quot x y true) := by
  obtain ⟨_, hm, _, _⟩ := quotAux_spec y hy x.reverse 0 hy
    (fun d hd => hx.2 d (List.mem_reverse.mp hd))
  have hm' : (quotAux y x.reverse 0).2 = val x % y := by
    rw [hm, List.reverse_reverse, Nat.zero_mul, Nat.zero_add]
  constructor
  · show val ((quotAux y x.reverse 0).2 :: List.replicate (SIZE - 1) 0) = val x % y
    rw [val_cons, val_replicate_zero, Nat.mul_zero, Nat.add_zero, hm']
  · constructor
    · show ((quotAux y x.reverse 0).2 :: List.replicate (SIZE - 1) 0).length = SIZE
      simp [SIZE]
    · intro d hd
      rcases List.mem_cons.mp hd with h | h
      · subst h
        rw [hm']
        have : val x % y < y := Nat.mod_lt _ hy
        omega
      · have := List.eq_of_mem_replicate h
        subst this; exact BASE_pos

/-- Full characterization of the borrowing subtraction `sub`. -/
theorem subAux_spec : ∀ (x y : List Nat) (b : Nat),
    x.length = y.length → b ≤ 1 → (∀ d ∈ x, d < BASE) → (∀ d ∈ y, d < BASE) →
    val (subAux x y b) = (val x + BASE ^ x.length - b - val y) % BASE ^ x.length ∧
      (∀ d ∈ subAux x y b, d < BASE) ∧ (subAux x y b).length = x.length := by
  intro x
  induction x with
  | nil =>
      intro y b hlen hb _ _
      cases y with
      | nil => simp [subAux, val, Nat.mod_one]
      | cons e es => simp at hlen
  | cons d ds ih =>
      intro y b hlen hb hx hy
      cases y with
      | nil => simp at hlen
      | cons e es =>
          have hd : d < BASE := hx d (List.mem_cons_self d ds)
          have he : e < BASE := hy e (List.mem_cons_self e es)
          have hB : BASE = 256 := rfl
          have hbb : 1 - ((d + BASE) - b - e) / BASE ≤ 1 := Nat.sub_le 1 _
          obtain ⟨ihv, ihw, ihl⟩ := ih es (1 - ((d + BASE) - b - e) / BASE)
            (by simpa using hlen) hbb
            (fun a ha => hx a (List.mem_cons_of_mem d ha))
            (fun a ha => hy a (List.mem_cons_of_mem e ha))
          have hes : val es < BASE ^ es.length :=
            val_lt es (fun a ha => hy a (List.mem_cons_of_mem e ha))
          refine ⟨?_, ?_, ?_⟩
          · show (((d + BASE) - b - e) % BASE) +
              BASE * val (subAux ds es (1 - ((d + BASE) - b - e) / BASE)) = _
            rw [ihv]
            rw [add_base_mul_mod _ _ _ (Nat.mod_lt _ BASE_pos)]
            have hlds : ds.length = es.length := by simpa using hlen
            have hpow : BASE ^ (d :: ds).length = BASE * BASE ^ ds.length := by
              simp [List.length_cons, pow_succ]; ring
            rw [hpow]
            congr 1
            have h1 : 1 ≤ BASE ^ ds.length := Nat.one_le_pow _ _ BASE_pos
            rw [hlds] at h1 ⊢
            simp only [val_cons]
            rw [hB] at hd he hes h1 ⊢
            omega
          · intro a ha
            rcases List.mem_cons.mp ha with h | h
            · subst h; exact Nat.mod_lt _ BASE_pos
            · exact ihw a h
          · show (subAux ds es (1 - ((d + BASE) - b - e) / BASE)).length + 1 =
              ds.length + 1
            rw [ihl]

theorem getD_drop (x : List Nat) : ∀ (k i : Nat),
    (x.drop k).getD i 0 = x.getD (k + i) 0 := by
  induction x with
  | nil => intro k i; simp
  | cons d ds ih =>
      intro k i
      cases k with
      | zero => simp
      | succ k =>
          show (ds.drop k).getD i 0 = (d :: ds).getD (k + 1 + i) 0
          rw [ih k i]
          have : k + 1 + i = (k + i) + 1 := by omega
          rw [this]
          rfl

theorem val_eq_zero_of_forall_getD {l : List Nat}
    (h : ∀ i, l.getD i 0 = 0) : val l = 0 := by
  induction l with
  | nil => rfl
  | cons d ds ih =>
      have h0 : d = 0 := h 0
      have hrest : ∀ i, ds.getD i 0 = 0 := fun i => h (i + 1)
      rw [val_cons, h0, ih hrest]
      simp

theorem getD_eq_zero_of_val_eq_zero {l : List Nat} (hw : ∀ d ∈ l, d < BASE)
    (h : val l = 0) (i : Nat) : l.getD i 0 = 0 := by
  rw [getD_eq_val_div_mod l hw i, h]
  simp

theorem base_pow_le_val_of_getD {x : List Nat} (hw : ∀ d ∈ x, d < BASE)
    {i : Nat} (h : x.getD i 0 ≠ 0) : BASE ^ i ≤ val x := by
  by_contra hlt
  push_neg at hlt
  exact h (getD_eq_zero_of_val_lt hw hlt (le_refl i))

/-- Properties of the `len` loop. -/
theorem lenGo_spec (x : Dwa) : ∀ i : Nat, 1 ≤ i →
    1 ≤ lenGo x i ∧ lenGo x i ≤ i ∧
      (∀ j, lenGo x i ≤ j → j < i → x.getD j 0 = 0) ∧
      (1 < lenGo x i → x.getD (lenGo x i - 1) 0 ≠ 0) := by
  intro i
  induction i with
  | zero => omega
  | succ i ih =>
      intro _
      cases i with
      | zero =>
          refine ⟨le_refl 1, le_refl 1, ?_, ?_⟩
          · intro j h1 h2
            have h1' : 1 ≤ j := h1
            omega
          · intro hgt
            have hgt' : (1 : Nat) < 1 := hgt
            omega
      | succ i =>
          obtain ⟨ih1, ih2, ih3, ih4⟩ := ih (by omega)
          by_cases h : x.getD (i + 1) 0 = 0
          · have heq : lenGo x (i + 1 + 1) = lenGo x (i + 1) := by
              show (if x.getD (i + 1) 0 = 0 then lenGo x (i + 1) else i + 2) = _
              rw [if_pos h]
            simp only [heq]
            refine ⟨ih1, by omega, ?_, ih4⟩
            intro j h1 h2
            rcases Nat.lt_or_ge j (i + 1) with hj | hj
            · exact ih3 j h1 hj
            · have hji : j = i + 1 := by omega
              rw [hji]; exact h
          · have heq : lenGo x (i + 1 + 1) = i + 2 := by
              show (if x.getD (i + 1) 0 = 0 then lenGo x (i + 1) else i + 2) = _
              rw [if_neg h]
            simp only [heq]
            refine ⟨by omega, by omega, ?_, ?_⟩
            · intro j h1 h2
              omega
            · intro _
              have hsub : i + 2 - 1 = i + 1 := by omega
              rw [hsub]
              exact h

theorem len_pos (x : Dwa) : 1 ≤ len x := (lenGo_spec x SIZE (by norm_num [SIZE])).1

theorem len_le_SIZE (x : Dwa) : len x ≤ SIZE := (lenGo_spec x SIZE (by norm_num [SIZE])).2.1

theorem getD_eq_zero_of_len_le {x : Dwa} (hx : Wf x) {j : Nat}
    (h : len x ≤ j) : x.getD j 0 = 0 := by
  rcases Nat.lt_or_ge j SIZE with hj | hj
  · exact (lenGo_spec x SIZE (by norm_num [SIZE])).2.2.1 j h hj
  · have hlen : x.length ≤ j := by rw [hx.1]; omega
    exact List.getD_eq_default _ _ hlen

theorem len_top_ne_zero {x : Dwa} (h : 1 < len x) :
    x.getD (len x - 1) 0 ≠ 0 := (lenGo_spec x SIZE (by norm_num [SIZE])).2.2.2 h

theorem val_lt_pow_len {x : Dwa} (hx : Wf x) : val x < BASE ^ len x := by
  have hd : val (x.drop (len x)) = 0 := by
    apply val_eq_zero_of_forall_getD
    intro i
    rw [getD_drop]
    exact getD_eq_zero_of_len_le hx (by omega)
  have := val_take_add_drop x (len x)
  rw [hd, Nat.mul_zero, Nat.add_zero] at this
  rw [this]
  have hlen : (x.take (len x)).length ≤ len x := by
    simp [List.length_take]
  calc val (x.take (len x)) < BASE ^ (x.take (len x)).length :=
        val_lt _ (fun d hd' => hx.2 d (List.mem_of_mem_take hd'))
    _ ≤ BASE ^ len x := Nat.pow_le_pow_right (by norm_num [BASE]) hlen

theorem pow_len_pred_le_val {x : Dwa} (hx : Wf x) (h : 1 < len x) :
    BASE ^ (len x - 1) ≤ val x :=
  base_pow_le_val_of_getD hx.2 (len_top_ne_zero h)

theorem len_eq_one_val {x : Dwa} (hx : Wf x) (h : len x = 1) :
    val x = x.getD 0 0 := by
  have hlt : val x < BASE := by
    have := val_lt_pow_len hx
    rw [h, pow_one] at this
    exact this
  rw [getD_eq_val_div_mod x hx.2 0, pow_zero, Nat.div_one, Nat.mod_eq_of_lt hlt]

/-- The loop condition of `dwa_tostru` is equivalent to the value being
nonzero. -/
theorem tostru_cond_iff {x : Dwa} (hx : Wf x) :
    (1 < len x ∨ x.getD 0 0 ≠ 0) ↔ val x ≠ 0 := by
  constructor
  · intro h hv
    rcases h with h | h
    · exact len_top_ne_zero h (getD_eq_zero_of_val_eq_zero hx.2 hv _)
    · exact h (getD_eq_zero_of_val_eq_zero hx.2 hv 0)
  · intro hv
    by_contra hcon
    push_neg at hcon
    obtain ⟨h1, h2⟩ := hcon
    have hlen : len x = 1 := by
      have := len_pos x
      omega
    exact hv (by rw [len_eq_one_val hx hlen]; exact h2)

theorem getD_set_ne (l : List Nat) : ∀ (k j q : Nat), j ≠ k →
    (l.set k q).getD j 0 = l.getD j 0 := by
  induction l with
  | nil => intro k j q _; simp
  | cons d ds ih =>
      intro k j q hne
      cases k with
      | zero =>
          cases j with
          | zero => omega
          | succ j => rfl
      | succ k =>
          cases j with
          | zero => rfl
          | succ j =>
              show (ds.set k q).getD j 0 = ds.getD j 0
              exact ih k j q (by omega)

theorem val_set {l : List Nat} : ∀ {k : Nat} (q : Nat), k < l.length →
    l.getD k 0 = 0 → val (l.set k q) = val l + BASE ^ k * q := by
  induction l with
  | nil => intro k q h _; simp at h
  | cons d ds ih =>
      intro k q hk h0
      cases k with
      | zero =>
          have hd : d = 0 := h0
          show val (q :: ds) = val (d :: ds) + 1 * q
          rw [val_cons, val_cons, hd]
          ring
      | succ k =>
          show val (d :: ds.set k q) = val (d :: ds) + BASE ^ (k + 1) * q
          rw [val_cons, val_cons, ih q (by simpa using hk) h0, pow_succ]
          ring

theorem mem_set_bound {l : List Nat} {k q : Nat} (hq : q < BASE)
    (hw : ∀ d ∈ l, d < BASE) : ∀ d ∈ l.set k q, d < BASE := by
  intro d hd
  rcases List.mem_or_eq_of_mem_set hd with h | h
  · exact hw d h
  · subst h; exact hq

/-- Knuth-style bound, lower side: the trial digit `r3 / y2` computed from
the leading two divisor digits and three remainder digits never
underestimates the true quotient digit `w / Y`. -/
theorem qhat_ge {w Y y2 k2 : Nat} (hk2 : 0 < k2) (hy2 : 0 < y2)
    (hYlow : y2 * k2 ≤ Y) :
    w / Y ≤ w / k2 / y2 := by
  by_contra hcon
  push_neg at hcon
  have h1 : w / k2 / y2 + 1 ≤ w / Y := hcon
  have hY : 0 < Y := lt_of_lt_of_le (Nat.mul_pos hy2 hk2) hYlow
  have h2 : (w / Y) * Y ≤ w := Nat.div_mul_le_self w Y
  have h3 : (w / k2 / y2 + 1) * Y ≤ w :=
    le_trans (Nat.mul_le_mul_right _ h1) h2
  have h4 : (w / k2 / y2 + 1) * (y2 * k2) ≤ w :=
    le_trans (Nat.mul_le_mul_left _ hYlow) h3
  have h5 : w / k2 < (w / k2 / y2 + 1) * y2 := by
    have := Nat.lt_mul_div_succ (w / k2) hy2
    calc w / k2 < y2 * (w / k2 / y2 + 1) := this
      _ = (w / k2 / y2 + 1) * y2 := by ring
  have h6 : w / k2 + 1 ≤ (w / k2 / y2 + 1) * y2 := h5
  have h7 : (w / k2 + 1) * k2 ≤ (w / k2 / y2 + 1) * y2 * k2 :=
    Nat.mul_le_mul_right _ h6
  have h8 : w < (w / k2 + 1) * k2 := by
    have := Nat.lt_mul_div_succ w hk2
    calc w < k2 * (w / k2 + 1) := this
      _ = (w / k2 + 1) * k2 := by ring
  have h9 : (w / k2 / y2 + 1) * (y2 * k2) = (w / k2 / y2 + 1) * y2 * k2 := by ring
  omega

/-- Knuth-style bound, upper side: with two divisor digits the trial digit
overestimates the true one by at most 1 (no normalization needed, because
`y2 ≥ BASE > q`). -/
theorem qhat_le {w Y y2 k2 : Nat} (hk2 : 0 < k2) (hy2 : 0 < y2)
    (hYhigh : Y < (y2 + 1) * k2) (hY : 0 < Y)
    (hq : w / Y + 1 ≤ y2) :
    w / k2 / y2 ≤ w / Y + 1 := by
  set q := w / Y with hqdef
  have h1 : w < (q + 1) * Y := by
    have := Nat.lt_mul_div_succ w hY
    calc w < Y * (q + 1) := this
      _ = (q + 1) * Y := by ring
  have h2 : w < (q + 1) * ((y2 + 1) * k2) := by
    calc w < (q + 1) * Y := h1
      _ ≤ (q + 1) * ((y2 + 1) * k2) := Nat.mul_le_mul_left _ (le_of_lt hYhigh)
  have h3 : (w / k2) * k2 ≤ w := Nat.div_mul_le_self w k2
  have h4 : (w / k2) * k2 < ((q + 1) * (y2 + 1)) * k2 := by
    calc (w / k2) * k2 ≤ w := h3
      _ < (q + 1) * ((y2 + 1) * k2) := h2
      _ = ((q + 1) * (y2 + 1)) * k2 := by ring
  have h5 : w / k2 < (q + 1) * (y2 + 1) := Nat.lt_of_mul_lt_mul_right h4
  have h6 : (q + 1) * (y2 + 1) ≤ (q + 2) * y2 := by
    have : q + 1 ≤ y2 := hq
    calc (q + 1) * (y2 + 1) = q * y2 + y2 + q + 1 := by ring
      _ ≤ q * y2 + y2 + y2 := by omega
      _ = (q + 2) * y2 := by ring
  have h7 : w / k2 < (q + 2) * y2 := lt_of_lt_of_le h5 h6
  have h8 : w / k2 / y2 < q + 2 := (Nat.div_lt_iff_lt_mul hy2).mpr h7
  omega

/-- The two leading digits of a well-formed digit list, as read by
`dwa_divu`, are the two leading base-256 places of its value. -/
theorem two_digit_split {l : List Nat} (hw : ∀ d ∈ l, d < BASE) {m : Nat}
    (hm : 2 ≤ m) (hv : val l < BASE ^ m) :
    l.getD (m - 1) 0 * BASE + l.getD (m - 2) 0 = val l / BASE ^ (m - 2) := by
  have h2 := getD_eq_val_div_mod l hw (m - 2)
  have h1 := getD_eq_val_div_mod l hw (m - 1)
  have hm1 : m - 1 = (m - 2) + 1 := by omega
  have hW : val l / BASE ^ (m - 2) < BASE ^ 2 := by
    rw [Nat.div_lt_iff_lt_mul (Nat.pos_pow_of_pos _ BASE_pos)]
    calc val l < BASE ^ m := hv
      _ = BASE ^ 2 * BASE ^ (m - 2) := by
          rw [← pow_add]
          congr 1
          omega
  have hdiv : val l / BASE ^ (m - 1) = val l / BASE ^ (m - 2) / BASE := by
    rw [hm1, pow_succ, Nat.div_div_eq_div_mul]
  have htop : val l / BASE ^ (m - 2) / BASE < BASE := by
    rw [Nat.div_lt_iff_lt_mul BASE_pos]
    calc val l / BASE ^ (m - 2) < BASE ^ 2 := hW
      _ = BASE * BASE := by ring
  rw [h1, h2, hdiv, Nat.mod_eq_of_lt htop]
  have hB : BASE = 256 := rfl
  rw [hB]
  omega

/-- The three leading digits of the running remainder window are the three
leading base-256 places of the window value. -/
theorem three_digit_split {l : List Nat} (hw : ∀ d ∈ l, d < BASE) {m : Nat}
    (hm : 2 ≤ m) (hv : val l < BASE ^ (m + 1)) :
    l.getD m 0 * (BASE * BASE) + l.getD (m - 1) 0 * BASE + l.getD (m - 2) 0 =
      val l / BASE ^ (m - 2) := by
  have h2 := getD_eq_val_div_mod l hw (m - 2)
  have h1 := getD_eq_val_div_mod l hw (m - 1)
  have h0 := getD_eq_val_div_mod l hw m
  have hm1 : m - 1 = (m - 2) + 1 := by omega
  have hm0 : m = (m - 2) + 2 := by omega
  have hW : val l / BASE ^ (m - 2) < BASE ^ 3 := by
    rw [Nat.div_lt_iff_lt_mul (Nat.pos_pow_of_pos _ BASE_pos)]
    calc val l < BASE ^ (m + 1) := hv
      _ = BASE ^ 3 * BASE ^ (m - 2) := by
          rw [← pow_add]
          congr 1
          omega
  have hd1 : val l / BASE ^ (m - 1) = val l / BASE ^ (m - 2) / BASE := by
    rw [hm1, pow_succ, Nat.div_div_eq_div_mul]
  have hpow : BASE ^ m = BASE ^ (m - 2) * BASE * BASE := by
    conv_lhs => rw [hm0]
    ring
  have hd0 : val l / BASE ^ m = val l / BASE ^ (m - 2) / BASE / BASE := by
    rw [hpow, ← Nat.div_div_eq_div_mul, ← Nat.div_div_eq_div_mul]
  have htop : val l / BASE ^ (m - 2) / BASE / BASE < BASE := by
    rw [Nat.div_lt_iff_lt_mul BASE_pos, Nat.div_lt_iff_lt_mul BASE_pos]
    calc val l / BASE ^ (m - 2) < BASE ^ 3 := hW
      _ = BASE * BASE * BASE := by ring
  rw [h0, h1, h2, hd1, hd0, Nat.mod_eq_of_lt htop]
  have e1 := Nat.mod_add_div (val l / BASE ^ (m - 2)) BASE
  have e2 := Nat.mod_add_div (val l / BASE ^ (m - 2) / BASE) BASE
  have hB : BASE = 256 := rfl
  rw [hB] at e1 e2 ⊢
  omega

theorem getD_lt {l : List Nat} (hw : ∀ d ∈ l, d < BASE) (i : Nat) :
    l.getD i 0 < BASE := by
  rw [getD_eq_val_div_mod l hw i]
  exact Nat.mod_lt _ BASE_pos

/-- Comparing two digit strings at the most significant differing place
decides the comparison of their values. -/
theorem digit_compare {lw ld P a b : Nat} (h1 : lw < P) (h2 : ld < P)
    (hne : a ≠ b) : (lw + P * a < ld + P * b) ↔ a < b := by
  constructor
  · intro h
    by_contra hge
    push_neg at hge
    have hba : b < a := by omega
    have : ld + P * b < lw + P * a := by
      calc ld + P * b < P + P * b := by omega
        _ = P * (b + 1) := by ring
        _ ≤ P * a := Nat.mul_le_mul_left _ (by omega)
        _ ≤ lw + P * a := by omega
    omega
  · intro h
    calc lw + P * a < P + P * a := by omega
      _ = P * (a + 1) := by ring
      _ ≤ P * b := Nat.mul_le_mul_left _ (by omega)
      _ ≤ ld + P * b := by omega

/-- The correction test of `dwa_divu` — comparing `rem[i+k]` with `dq[i]` at
the scan's stopping index — is exactly the comparison of the remainder
window with the trial product. -/
theorem corrIdx_lt_iff (rem dq : List Nat) (k : Nat)
    (hwr : ∀ d ∈ rem, d < BASE) (hwq : ∀ d ∈ dq, d < BASE) :
    ∀ j, (∀ i, j < i → rem.getD (i + k) 0 = dq.getD i 0) →
    ((rem.getD (corrIdx rem dq k j + k) 0 < dq.getD (corrIdx rem dq k j) 0) ↔
      val ((rem.drop k).take (j + 1)) < val (dq.take (j + 1))) := by
  have hwrd : ∀ d ∈ rem.drop k, d < BASE :=
    fun d hd => hwr d (List.mem_of_mem_drop hd)
  intro j
  induction j with
  | zero =>
      intro _
      show rem.getD (0 + k) 0 < dq.getD 0 0 ↔ _
      have e1 : val ((rem.drop k).take 1) = (rem.drop k).getD 0 0 := by
        rw [val_take_succ]
        simp [val]
      have e2 : val (dq.take 1) = dq.getD 0 0 := by
        rw [val_take_succ]
        simp [val]
      rw [e1, e2, getD_drop]
      have : (0 : Nat) + k = k + 0 := by omega
      rw [this]
  | succ j ih =>
      intro h
      have e1 : val ((rem.drop k).take (j + 1 + 1)) =
          val ((rem.drop k).take (j + 1)) + BASE ^ (j + 1) * rem.getD (j + 1 + k) 0 := by
        rw [val_take_succ, getD_drop]
        have : k + (j + 1) = j + 1 + k := by omega
        rw [this]
      have e2 : val (dq.take (j + 1 + 1)) =
          val (dq.take (j + 1)) + BASE ^ (j + 1) * dq.getD (j + 1) 0 :=
        val_take_succ dq (j + 1)
      by_cases heq : rem.getD (j + 1 + k) 0 = dq.getD (j + 1) 0
      · have hcorr : corrIdx rem dq k (j + 1) = corrIdx rem dq k j := by
          show (if rem.getD (j + 1 + k) 0 = dq.getD (j + 1) 0 then
            corrIdx rem dq k j else j + 1) = _
          rw [if_pos heq]
        rw [hcorr, e1, e2, heq]
        rw [ih (fun i hi => by
          rcases Nat.lt_or_ge i (j + 2) with h2 | h2
          · have : i = j + 1 := by omega
            rw [this]; exact heq
          · exact h i (by omega))]
        omega
      · have hcorr : corrIdx rem dq k (j + 1) = j + 1 := by
          show (if rem.getD (j + 1 + k) 0 = dq.getD (j + 1) 0 then
            corrIdx rem dq k j else j + 1) = _
          rw [if_neg heq]
        rw [hcorr, e1, e2]
        have hlw : val ((rem.drop k).take (j + 1)) < BASE ^ (j + 1) := by
          calc val ((rem.drop k).take (j + 1)) <
                BASE ^ ((rem.drop k).take (j + 1)).length :=
              val_lt _ (fun d hd => hwrd d (List.mem_of_mem_take hd))
            _ ≤ BASE ^ (j + 1) := Nat.pow_le_pow_right (by norm_num [BASE])
                (by simp [List.length_take])
        have hld : val (dq.take (j + 1)) < BASE ^ (j + 1) := by
          calc val (dq.take (j + 1)) < BASE ^ (dq.take (j + 1)).length :=
              val_lt _ (fun d hd => hwq d (List.mem_of_mem_take hd))
            _ ≤ BASE ^ (j + 1) := Nat.pow_le_pow_right (by norm_num [BASE])
                (by simp [List.length_take])
        exact (digit_compare hlw hld heq).symm

theorem val_take_of_len {x : Dwa} (hx : Wf x) {m : Nat} (h : len x ≤ m) :
    val (x.take m) = val x := by
  rw [val_take_of_wf hx.2]
  apply Nat.mod_eq_of_lt
  calc val x < BASE ^ len x := val_lt_pow_len hx
    _ ≤ BASE ^ m := Nat.pow_le_pow_right (by norm_num [BASE]) h

/-- The trial product `dq` of `dwa_divu` holds exactly `qd * val y` when
`qd < BASE`. -/
theorem dq_spec {y : Dwa} (hwy : Wf y) {m : Nat} (hm : m = len y)
    {qd : Nat} (hqd : qd < BASE) :
    val ((prod m y qd).1 ++ [(prod m y qd).2]) = qd * val y ∧
      (∀ d ∈ (prod m y qd).1 ++ [(prod m y qd).2], d < BASE) ∧
      ((prod m y qd).1 ++ [(prod m y qd).2]).length = m + 1 := by
  have hmS : m ≤ SIZE := hm ▸ len_le_SIZE y
  have htw : ∀ d ∈ y.take m, d < BASE := fun d hd => hwy.2 d (List.mem_of_mem_take hd)
  have htl : (y.take m).length = m := length_take_of_le (by rw [hwy.1]; exact hmS)
  have hty : val (y.take m) = val y := val_take_of_len hwy (le_of_eq hm.symm)
  obtain ⟨hv, hw, hl⟩ := prodAux_spec qd hqd (y.take m) 0 htw
  rw [htl, hty] at hv
  have hsnd : (prod m y qd).2 < BASE := by
    have hds := prodAux_snd qd hqd (y.take m) 0 htw
    rw [htl, hty] at hds
    show (prodAux qd (y.take m) 0).2 < BASE
    rw [hds]
    rw [Nat.div_lt_iff_lt_mul (Nat.pos_pow_of_pos _ BASE_pos)]
    have h1 : val y < BASE ^ m := by
      calc val y < BASE ^ len y := val_lt_pow_len hwy
        _ ≤ BASE ^ m := by rw [hm]
    have h2 : qd * val y ≤ qd * BASE ^ m :=
      Nat.mul_le_mul_left _ (Nat.le_of_lt_succ (Nat.lt_succ_of_lt h1))
    have h3 : qd * BASE ^ m < BASE * BASE ^ m :=
      (Nat.mul_lt_mul_right (Nat.pos_pow_of_pos _ BASE_pos)).mpr hqd
    omega
  have hpe : prod m y qd = prodAux qd (y.take m) 0 := rfl
  rw [hpe]
  refine ⟨?_, ?_, ?_⟩
  · rw [val_append, hl, htl]
    have hone : val [(prodAux qd (y.take m) 0).2] = (prodAux qd (y.take m) 0).2 := by
      simp [val]
    rw [hone]
    omega
  · intro d hd
    rcases List.mem_append.mp hd with h | h
    · exact hw d h
    · have hde : d = (prodAux qd (y.take m) 0).2 := by simpa using h
      rw [hde]
      rw [hpe] at hsnd
      exact hsnd
  · rw [List.length_append, hl, htl]
    rfl

/-- One long-division step computes exactly the next quotient digit and
reduces the remainder accordingly: the estimate from two divisor digits is
off by at most one, and the single unconditional correction repairs it. -/
theorem divuStep_spec {y : Dwa} {m n k : Nat} (hwy : Wf y)
    (hm2 : 2 ≤ m) (hm : m = len y)
    {rem : List Nat} (hrl : rem.length = n + 1) (hrw : ∀ d ∈ rem, d < BASE)
    (hkm : k + m ≤ n)
    (hbound : val rem < val y * BASE ^ (k + 1)) :
    (divuStep y m rem k).1 = val rem / (val y * BASE ^ k) ∧
      (divuStep y m rem k).2.length = n + 1 ∧
      (∀ d ∈ (divuStep y m rem k).2, d < BASE) ∧
      val (divuStep y m rem k).2 = val rem % (val y * BASE ^ k) := by
  have hB : BASE = 256 := rfl
  have hYpos : 0 < val y := by
    have h1 : BASE ^ (m - 1) ≤ val y := by
      rw [hm]; exact pow_len_pred_le_val hwy (by omega)
    have h2 : 0 < BASE ^ (m - 1) := Nat.pos_pow_of_pos _ BASE_pos
    omega
  have hYm : val y < BASE ^ m := by
    calc val y < BASE ^ len y := val_lt_pow_len hwy
      _ ≤ BASE ^ m := by rw [hm]
  have hk2 : 0 < BASE ^ (m - 2) := Nat.pos_pow_of_pos _ BASE_pos
  have hpowk : 0 < BASE ^ k := Nat.pos_pow_of_pos _ BASE_pos
  -- the window value
  have hkn1 : k ≤ rem.length := by omega
  have htkl : (rem.take k).length = k := length_take_of_le hkn1
  have htklt : val (rem.take k) < BASE ^ k := by
    have := val_lt (rem.take k) (fun d hd => hrw d (List.mem_of_mem_take hd))
    rwa [htkl] at this
  have hw_drop : val (rem.drop k) = val rem / BASE ^ k := by
    have hsplit := val_take_add_drop rem k
    rw [htkl] at hsplit
    rw [hsplit, Nat.add_mul_div_left _ _ hpowk, Nat.div_eq_of_lt htklt]
    omega
  set w := val rem / BASE ^ k with hwdef
  have hwlt : w < val y * BASE := by
    rw [hwdef, Nat.div_lt_iff_lt_mul hpowk]
    calc val rem < val y * BASE ^ (k + 1) := hbound
      _ = val y * BASE * BASE ^ k := by rw [pow_succ]; ring
  have hwm1 : w < BASE ^ (m + 1) := by
    calc w < val y * BASE := hwlt
      _ ≤ BASE ^ m * BASE := Nat.mul_le_mul_right _ (le_of_lt hYm)
      _ = BASE ^ (m + 1) := (pow_succ BASE m).symm
  have hwrd : ∀ d ∈ rem.drop k, d < BASE := fun d hd => hrw d (List.mem_of_mem_drop hd)
  -- digits of rem above k+m vanish
  have hremtop : ∀ j, k + m + 1 ≤ j → rem.getD j 0 = 0 := by
    intro j hj
    apply getD_eq_zero_of_val_lt hrw (k := k + m + 1)
    · calc val rem < val y * BASE ^ (k + 1) := hbound
        _ ≤ BASE ^ m * BASE ^ (k + 1) := Nat.mul_le_mul_right _ (le_of_lt hYm)
        _ = BASE ^ (k + m + 1) := by rw [← pow_add]; congr 1; omega
    · exact hj
  -- the two-digit divisor head
  set y2 := y.getD (m - 1) 0 * BASE + y.getD (m - 2) 0 with hy2def
  have hy2 : y2 = val y / BASE ^ (m - 2) := two_digit_split hwy.2 hm2 hYm
  have hy2B : BASE ≤ y2 := by
    have htopne : y.getD (m - 1) 0 ≠ 0 := by
      rw [hm]; exact len_top_ne_zero (by omega)
    have h1 : 1 ≤ y.getD (m - 1) 0 := Nat.one_le_iff_ne_zero.mpr htopne
    calc BASE = 1 * BASE := (Nat.one_mul _).symm
      _ ≤ y.getD (m - 1) 0 * BASE := Nat.mul_le_mul_right _ h1
      _ ≤ y2 := Nat.le_add_right _ _
  have hy2pos : 0 < y2 := by omega
  have hy2low : y2 * BASE ^ (m - 2) ≤ val y := by
    rw [hy2]
    exact Nat.div_mul_le_self _ _
  have hy2high : val y < (y2 + 1) * BASE ^ (m - 2) := by
    rw [hy2]
    calc val y < BASE ^ (m - 2) * (val y / BASE ^ (m - 2) + 1) :=
        Nat.lt_mul_div_succ _ hk2
      _ = (val y / BASE ^ (m - 2) + 1) * BASE ^ (m - 2) := by ring
  -- the three-digit remainder head
  set r3 := rem.getD (k + m) 0 * (BASE * BASE) + rem.getD (k + m - 1) 0 * BASE +
    rem.getD (k + m - 2) 0 with hr3def
  have hr3 : r3 = w / BASE ^ (m - 2) := by
    have h3 := three_digit_split hwrd hm2 (by rw [hw_drop]; exact hwm1)
    rw [hw_drop] at h3
    rw [hr3def, ← h3]
    rw [getD_drop, getD_drop, getD_drop]
    have e1 : k + (m - 1) = k + m - 1 := by omega
    have e2 : k + (m - 2) = k + m - 2 := by omega
    rw [e1, e2]
  -- true quotient digit
  set q := w / val y with hqdef
  have hqB : q < BASE := by
    rw [hqdef, Nat.div_lt_iff_lt_mul hYpos]
    calc w < val y * BASE := hwlt
      _ = BASE * val y := by ring
  have hq_rem : q = val rem / (val y * BASE ^ k) := by
    rw [hqdef, hwdef, Nat.div_div_eq_div_mul]
    congr 1
    ring
  -- the estimate and its bounds
  have hest1 : q ≤ r3 / y2 := by
    rw [hr3, hqdef]
    exact qhat_ge hk2 hy2pos hy2low
  have hest2 : r3 / y2 ≤ q + 1 := by
    rw [hr3, hqdef]
    exact qhat_le hk2 hy2pos hy2high hYpos (by rw [← hqdef]; omega)
  set qk0 := if BASE ≤ r3 / y2 then BASE - 1 else r3 / y2 with hqk0def
  have hqk0 : q ≤ qk0 ∧ qk0 ≤ q + 1 ∧ qk0 < BASE := by
    rw [hqk0def]
    split_ifs with hc
    · omega
    · omega
  -- trial product
  set dq := (prod m y qk0).1 ++ [(prod m y qk0).2] with hdqdef
  obtain ⟨hdqv, hdqw, hdql⟩ := dq_spec hwy hm hqk0.2.2
  rw [← hdqdef] at hdqv hdqw hdql
  -- window comparison
  set i := corrIdx rem dq k m with hidef
  have hcmp : (rem.getD (i + k) 0 < dq.getD i 0) ↔ w < qk0 * val y := by
    have habove : ∀ j, m < j → rem.getD (j + k) 0 = dq.getD j 0 := by
      intro j hj
      rw [hremtop (j + k) (by omega), List.getD_eq_default _ _ (by rw [hdql]; omega)]
    have := corrIdx_lt_iff rem dq k hrw hdqw m habove
    rw [hidef, this]
    have e1 : val ((rem.drop k).take (m + 1)) = w := by
      rw [val_take_of_wf hwrd, hw_drop, Nat.mod_eq_of_lt hwm1]
    have e2 : val (dq.take (m + 1)) = qk0 * val y := by
      rw [List.take_of_length_le (le_of_eq hdql), hdqv]
    rw [e1, e2]
  set qk := if rem.getD (i + k) 0 < dq.getD i 0 then qk0 - 1 else qk0 with hqkdef
  have hqk_eq : qk = q := by
    rw [hqkdef]
    split
    · rename_i hc
      have hlt : w < qk0 * val y := hcmp.mp hc
      have hlt2 : q < qk0 := by
        rw [hqdef, Nat.div_lt_iff_lt_mul hYpos]
        exact hlt
      obtain ⟨hb1, hb2, hb3⟩ := hqk0
      clear_value q qk0
      omega
    · rename_i hc
      have hge : qk0 * val y ≤ w := by
        by_contra hx
        push_neg at hx
        exact hc (hcmp.mpr hx)
      have hge2 : qk0 ≤ q := by
        rw [hqdef, Nat.le_div_iff_mul_le hYpos]
        exact hge
      obtain ⟨hb1, hb2, hb3⟩ := hqk0
      clear_value q qk0
      omega
  -- corrected product
  set dq2 := (prod m y qk).1 ++ [(prod m y qk).2] with hdq2def
  obtain ⟨hdq2v, hdq2w, hdq2l⟩ := @dq_spec y hwy m hm qk (by rw [hqk_eq]; exact hqB)
  rw [← hdq2def] at hdq2v hdq2w hdq2l
  rw [hqk_eq] at hdq2v
  -- assemble the step before making the abbreviations opaque
  have hstep : divuStep y m rem k = (qk, rem.take k ++
      subAux ((rem.drop k).take (m + 1)) dq2 0 ++ rem.drop (k + m + 1)) := rfl
  clear_value w y2 r3 q qk0 dq i qk dq2
  -- the subtraction window
  have hwin_len : ((rem.drop k).take (m + 1)).length = m + 1 := by
    rw [List.length_take, List.length_drop, hrl]
    omega
  have hwin_w : ∀ d ∈ (rem.drop k).take (m + 1), d < BASE :=
    fun d hd => hwrd d (List.mem_of_mem_take hd)
  have hwin_v : val ((rem.drop k).take (m + 1)) = w := by
    rw [val_take_of_wf hwrd, hw_drop, Nat.mod_eq_of_lt hwm1]
  have hqY_le : q * val y ≤ w := by
    rw [hqdef]
    exact Nat.div_mul_le_self _ _
  obtain ⟨hsv, hsw, hsl⟩ := subAux_spec ((rem.drop k).take (m + 1)) dq2 0
    (by rw [hwin_len, hdq2l]) (by omega) hwin_w hdq2w
  rw [hwin_len, hwin_v, hdq2v] at hsv
  have hrem_lt : w - q * val y < val y := by
    have h0 := Nat.lt_mul_div_succ w hYpos
    rw [← hqdef] at h0
    have h1 : w < q * val y + val y := by
      calc w < val y * (q + 1) := h0
        _ = q * val y + val y := by ring
    omega
  have hsv' : val (subAux ((rem.drop k).take (m + 1)) dq2 0) = w - q * val y := by
    rw [hsv]
    have h1 : w + BASE ^ (m + 1) - 0 - q * val y =
        BASE ^ (m + 1) + (w - q * val y) := by omega
    rw [h1]
    have h2 : w - q * val y < BASE ^ (m + 1) := by
      have : val y ≤ BASE ^ (m + 1) := by
        calc val y ≤ BASE ^ m := le_of_lt hYm
          _ ≤ BASE ^ (m + 1) := Nat.pow_le_pow_right (by norm_num [BASE]) (by omega)
      omega
    rw [Nat.add_mod_left, Nat.mod_eq_of_lt h2]
  have hdrop_hi : val (rem.drop (k + m + 1)) = 0 := by
    apply val_eq_zero_of_forall_getD
    intro j
    rw [getD_drop]
    exact hremtop _ (by omega)
  have hlen2 : (rem.take k ++ subAux ((rem.drop k).take (m + 1)) dq2 0 ++
      rem.drop (k + m + 1)).length = n + 1 := by
    rw [List.length_append, List.length_append, htkl, hsl, hwin_len,
      List.length_drop, hrl]
    omega
  have hval2 : val (rem.take k ++ subAux ((rem.drop k).take (m + 1)) dq2 0 ++
      rem.drop (k + m + 1)) = val (rem.take k) + BASE ^ k * (w - q * val y) := by
    rw [val_append, val_append, hsv', hdrop_hi, List.length_append, htkl, hsl,
      hwin_len]
    ring
  have hmod : val (rem.take k) + BASE ^ k * (w - q * val y) =
      val rem % (val y * BASE ^ k) := by
    have hsplit := val_take_add_drop rem k
    rw [htkl, hw_drop] at hsplit
    have hwq : w = (w - q * val y) + val y * q := by
      have : val y * q = q * val y := by ring
      omega
    have hrem_as : val rem = (val (rem.take k) + BASE ^ k * (w - q * val y)) +
        (val y * BASE ^ k) * q := by
      rw [hsplit]
      conv_lhs => rw [hwq]
      ring
    rw [hrem_as, Nat.add_mul_mod_self_left]
    symm
    apply Nat.mod_eq_of_lt
    calc val (rem.take k) + BASE ^ k * (w - q * val y)
        < BASE ^ k + BASE ^ k * (w - q * val y) := by omega
      _ = BASE ^ k * ((w - q * val y) + 1) := by ring
      _ ≤ BASE ^ k * val y := Nat.mul_le_mul_left _ (by omega)
      _ = val y * BASE ^ k := by ring
  refine ⟨?_, ?_, ?_, ?_⟩
  · rw [hstep]
    show qk = _
    rw [hqk_eq, hq_rem]
  · rw [hstep]
    exact hlen2
  · rw [hstep]
    intro d hd
    rcases List.mem_append.mp hd with h | h
    · rcases List.mem_append.mp h with h2 | h2
      · exact hrw d (List.mem_of_mem_take h2)
      · exact hsw d h2
    · exact hrw d (List.mem_of_mem_drop h)
  · rw [hstep]
    show val _ = _
    rw [hval2, hmod]

theorem getD_zeroDwa (j : Nat) : zeroDwa.getD j 0 = 0 :=
  getD_eq_zero_of_val_lt wf_zeroDwa.2
    (by rw [val_zeroDwa]; exact Nat.one_pos) (Nat.zero_le j)

/-- The long-division loop: starting `kk` positions above the bottom with a
remainder below `val y * BASE^kk`, it deposits the base-256 digits of the
quotient into `t` and leaves the final remainder. -/
theorem divuGo_spec {y : Dwa} {m n : Nat} (hwy : Wf y) (hm2 : 2 ≤ m)
    (hm : m = len y) : ∀ (kk : Nat) (rem : List Nat) (t : Dwa),
    kk + m ≤ n + 1 → kk ≤ SIZE →
    rem.length = n + 1 → (∀ d ∈ rem, d < BASE) →
    val rem < val y * BASE ^ kk →
    t.length = SIZE → (∀ d ∈ t, d < BASE) → (∀ j, j < kk → t.getD j 0 = 0) →
    (divuGo y m kk rem t).1.length = n + 1 ∧
      (∀ d ∈ (divuGo y m kk rem t).1, d < BASE) ∧
      val (divuGo y m kk rem t).1 = val rem % val y ∧
      (divuGo y m kk rem t).2.length = SIZE ∧
      (∀ d ∈ (divuGo y m kk rem t).2, d < BASE) ∧
      val (divuGo y m kk rem t).2 = val t + val rem / val y := by
  have hYpos : 0 < val y := by
    have h1 : BASE ^ (m - 1) ≤ val y := by
      rw [hm]; exact pow_len_pred_le_val hwy (by omega)
    have h2 : 0 < BASE ^ (m - 1) := Nat.pos_pow_of_pos _ BASE_pos
    omega
  intro kk
  induction kk with
  | zero =>
      intro rem t _ _ hrl hrw hbound htl htw _
      have hlt : val rem < val y := by
        rw [pow_zero, Nat.mul_one] at hbound
        exact hbound
      refine ⟨hrl, hrw, ?_, htl, htw, ?_⟩
      · show val rem = val rem % val y
        rw [Nat.mod_eq_of_lt hlt]
      · show val t = val t + val rem / val y
        rw [Nat.div_eq_of_lt hlt]
        omega
  | succ k ih =>
      intro rem t hkm hkS hrl hrw hbound htl htw htz
      have hkm' : k + m ≤ n := by omega
      obtain ⟨hq_eq, hrl', hrw', hrv'⟩ := divuStep_spec hwy hm2 hm hrl hrw hkm'
        hbound
      have hqk_lt : (divuStep y m rem k).1 < BASE := by
        rw [hq_eq, Nat.div_lt_iff_lt_mul
          (Nat.mul_pos hYpos (Nat.pos_pow_of_pos _ BASE_pos))]
        calc val rem < val y * BASE ^ (k + 1) := hbound
          _ = BASE * (val y * BASE ^ k) := by rw [pow_succ]; ring
      have htz' : ∀ j, j < k → (t.set k (divuStep y m rem k).1).getD j 0 = 0 := by
        intro j hj
        rw [getD_set_ne t k j _ (by omega)]
        exact htz j (by omega)
      have hts_len : (t.set k (divuStep y m rem k).1).length = SIZE := by
        rw [List.length_set]; exact htl
      have hts_w : ∀ d ∈ t.set k (divuStep y m rem k).1, d < BASE :=
        mem_set_bound hqk_lt htw
      have hts_val : val (t.set k (divuStep y m rem k).1) =
          val t + BASE ^ k * (divuStep y m rem k).1 :=
        val_set _ (by rw [htl]; omega) (htz k (by omega))
      have hbound' : val (divuStep y m rem k).2 < val y * BASE ^ k := by
        rw [hrv']
        exact Nat.mod_lt _ (Nat.mul_pos hYpos (Nat.pos_pow_of_pos _ BASE_pos))
      obtain ⟨ih1, ih2, ih3, ih4, ih5, ih6⟩ := ih (divuStep y m rem k).2
        (t.set k (divuStep y m rem k).1) (by omega) (by omega) hrl' hrw'
        hbound' hts_len hts_w htz'
      have hstep : divuGo y m (k + 1) rem t =
          divuGo y m k (divuStep y m rem k).2 (t.set k (divuStep y m rem k).1) := rfl
      rw [hstep]
      refine ⟨ih1, ih2, ?_, ih4, ih5, ?_⟩
      · rw [ih3, hrv']
        exact Nat.mod_mod_of_dvd _ (Dvd.intro _ rfl)
      · rw [ih6, hts_val, hrv', hq_eq]
        have hdecomp : val rem / val y =
            (val rem % (val y * BASE ^ k)) / val y +
              (val rem / (val y * BASE ^ k)) * BASE ^ k := by
          conv_lhs => rw [← Nat.mod_add_div (val rem) (val y * BASE ^ k)]
          have hout : val y * BASE ^ k * (val rem / (val y * BASE ^ k)) =
              val y * (BASE ^ k * (val rem / (val y * BASE ^ k))) := by ring
          rw [hout, Nat.add_mul_div_left _ _ hYpos]
          ring
        rw [hdecomp]
        ring

/-- `dwa_divu` computes the true quotient and remainder for every nonzero
divisor, in all three code paths (single-digit, wider divisor, long
division). -/
theorem dwa_divu_spec {x y : Dwa} (hx : Wf x) (hy : Wf y) (hyv : val y ≠ 0) :
    val (dwa_divu x y false) = val x / val y ∧ Wf (dwa_divu x y false) ∧
      val (dwa_divu x y true) = val x % val y ∧ Wf (dwa_divu x y true) := by
  by_cases hm1 : len y = 1
  · -- single-digit divisor
    have hval1 : val y = y.getD 0 0 := len_eq_one_val hy hm1
    have hy0 : y.getD 0 0 ≠ 0 := by rw [← hval1]; exact hyv
    have hy0p : 0 < y.getD 0 0 := Nat.pos_of_ne_zero hy0
    have he : ∀ md : Bool, dwa_divu x y md = quot x (y.getD 0 0) md := by
      intro md
      simp only [dwa_divu]
      rw [if_pos hm1, if_neg hy0]
    obtain ⟨hqv, hqw⟩ := quot_div_spec hx hy0p
    obtain ⟨hmv, hmw⟩ := quot_mod_spec hx hy0p (le_of_lt (getD_lt hy.2 0))
    refine ⟨?_, ?_, ?_, ?_⟩
    · rw [he false, hqv, hval1]
    · rw [he false]; exact hqw
    · rw [he true, hmv, hval1]
    · rw [he true]; exact hmw
  · have hm2 : 2 ≤ len y := by
      have := len_pos y
      omega
    by_cases hnm : len x < len y
    · -- divisor wider than dividend
      have hxy : val x < val y := by
        calc val x < BASE ^ len x := val_lt_pow_len hx
          _ ≤ BASE ^ (len y - 1) :=
            Nat.pow_le_pow_right (by norm_num [BASE]) (by omega)
          _ ≤ val y := pow_len_pred_le_val hy (by omega)
      have he : ∀ md : Bool, dwa_divu x y md = if md then x else zeroDwa := by
        intro md
        simp only [dwa_divu]
        rw [if_neg hm1, if_pos hnm]
      refine ⟨?_, ?_, ?_, ?_⟩
      · rw [he false]
        show val zeroDwa = val x / val y
        rw [val_zeroDwa, Nat.div_eq_of_lt hxy]
      · rw [he false]
        exact wf_zeroDwa
      · rw [he true]
        show val x = val x % val y
        rw [Nat.mod_eq_of_lt hxy]
      · rw [he true]
        exact hx
    · -- general long division
      push_neg at hnm
      set n := len x with hn
      set m := len y with hmdef
      have hnS : n ≤ SIZE := len_le_SIZE x
      have hmS : m ≤ SIZE := len_le_SIZE y
      have hrem0l : (x.take n ++ [0]).length = n + 1 := by
        rw [List.length_append, length_take_of_le (by rw [hx.1]; exact hnS)]
        rfl
      have hrem0w : ∀ d ∈ x.take n ++ [0], d < BASE := by
        intro d hd
        rcases List.mem_append.mp hd with h | h
        · exact hx.2 d (List.mem_of_mem_take h)
        · have : d = 0 := by simpa using h
          rw [this]; exact BASE_pos
      have hrem0v : val (x.take n ++ [0]) = val x := by
        rw [val_append, val_take_of_len hx (le_of_eq hn.symm)]
        simp [val]
      have hYpos : 0 < val y := Nat.pos_of_ne_zero hyv
      have hbound : val (x.take n ++ [0]) < val y * BASE ^ (n - m + 1) := by
        rw [hrem0v]
        calc val x < BASE ^ n := by rw [hn]; exact val_lt_pow_len hx
          _ = BASE ^ (m - 1) * BASE ^ (n - m + 1) := by
              rw [← pow_add]; congr 1; omega
          _ ≤ val y * BASE ^ (n - m + 1) := by
              apply Nat.mul_le_mul_right
              rw [hmdef]
              exact pow_len_pred_le_val hy (by omega)
      obtain ⟨hg1, hg2, hg3, hg4, hg5, hg6⟩ := divuGo_spec hy hm2 hmdef
        (n - m + 1) (x.take n ++ [0]) zeroDwa (by omega) (by omega)
        hrem0l hrem0w hbound (by simp [zeroDwa]) wf_zeroDwa.2
        (fun j _ => getD_zeroDwa j)
      rw [hrem0v] at hg3 hg6
      rw [val_zeroDwa, Nat.zero_add] at hg6
      have hq_lt : val x / val y < BASE ^ (n - m + 1) := by
        rw [Nat.div_lt_iff_lt_mul hYpos]
        rw [hrem0v] at hbound
        calc val x < val y * BASE ^ (n - m + 1) := hbound
          _ = BASE ^ (n - m + 1) * val y := by ring
      have hr_lt : val x % val y < BASE ^ m := by
        calc val x % val y < val y := Nat.mod_lt _ hYpos
          _ < BASE ^ len y := val_lt_pow_len hy
          _ ≤ BASE ^ m := by rw [hmdef]
      have he : ∀ md : Bool, dwa_divu x y md =
          (if md then (divuGo y m (n - m + 1) (x.take n ++ [0]) zeroDwa).1.take m ++
            List.replicate (SIZE - m) 0
          else (divuGo y m (n - m + 1) (x.take n ++ [0]) zeroDwa).2.take (n - m + 1) ++
            List.replicate (SIZE - (n - m + 1)) 0) := by
        intro md
        simp only [dwa_divu]
        rw [if_neg hm1, if_neg (by omega)]
      have hef : dwa_divu x y false =
          (divuGo y m (n - m + 1) (x.take n ++ [0]) zeroDwa).2.take (n - m + 1) ++
            List.replicate (SIZE - (n - m + 1)) 0 := by
        rw [he false]
        simp
      have het : dwa_divu x y true =
          (divuGo y m (n - m + 1) (x.take n ++ [0]) zeroDwa).1.take m ++
            List.replicate (SIZE - m) 0 := by
        rw [he true]
        simp
      refine ⟨?_, ?_, ?_, ?_⟩
      · rw [hef, val_append, val_take_of_wf hg5, hg6, val_replicate_zero,
          Nat.mul_zero, Nat.add_zero, Nat.mod_eq_of_lt hq_lt]
      · rw [hef]
        constructor
        · rw [List.length_append, List.length_take, List.length_replicate, hg4]
          omega
        · intro d hd
          rcases List.mem_append.mp hd with h | h
          · exact hg5 d (List.mem_of_mem_take h)
          · have : d = 0 := List.eq_of_mem_replicate h
            rw [this]; exact BASE_pos
      · rw [het, val_append, val_take_of_wf hg2, hg3, val_replicate_zero,
          Nat.mul_zero, Nat.add_zero, Nat.mod_eq_of_lt hr_lt]
      · rw [het]
        constructor
        · rw [List.length_append, List.length_take, List.length_replicate, hg1]
          omega
        · intro d hd
          rcases List.mem_append.mp hd with h | h
          · exact hg2 d (List.mem_of_mem_take h)
          · have : d = 0 := List.eq_of_mem_replicate h
            rw [this]; exact BASE_pos

/-- The carry-propagation tail of `dwa_mulu`'s inner loop. -/
theorem propagate_spec : ∀ (zs : List Nat) (c : Nat),
    val (propagate c zs) = (c + val zs) % BASE ^ zs.length ∧
      (∀ d ∈ propagate c zs, d < BASE) ∧ (propagate c zs).length = zs.length := by
  intro zs
  induction zs with
  | nil => intro c; simp [propagate, val, Nat.mod_one]
  | cons z zs ih =>
      intro c
      obtain ⟨ihv, ihw, ihl⟩ := ih ((c + z) / BASE)
      refine ⟨?_, ?_, ?_⟩
      · show (c + z) % BASE + BASE * val (propagate ((c + z) / BASE) zs) = _
        rw [ihv, add_base_mul_mod _ _ _ (Nat.mod_lt _ BASE_pos)]
        have h2 : BASE * BASE ^ zs.length = BASE ^ (z :: zs).length := by
          simp [List.length_cons, pow_succ]; ring
        rw [h2]
        congr 1
        have hmd := Nat.mod_add_div (c + z) BASE
        simp only [val_cons]
        have hB : BASE = 256 := rfl
        rw [hB] at hmd ⊢
        omega
      · intro d hd
        rcases List.mem_cons.mp hd with h | h
        · subst h; exact Nat.mod_lt _ BASE_pos
        · exact ihw d h
      · simp [propagate, ihl]

/-- Inner loop of `dwa_mulu`: adds `xi * val ys` (plus carry) into the column
suffix, truncated to the suffix width. -/
theorem mulInner_spec (xi : Nat) : ∀ (zs ys : List Nat) (c : Nat),
    val (mulInner xi zs ys c) = (c + xi * val ys + val zs) % BASE ^ zs.length ∧
      (∀ d ∈ mulInner xi zs ys c, d < BASE) ∧
      (mulInner xi zs ys c).length = zs.length := by
  intro zs ys
  induction ys generalizing zs with
  | nil =>
      intro c
      obtain ⟨pv, pw, pl⟩ := propagate_spec zs c
      have hred : mulInner xi zs [] c = propagate c zs := by
        cases zs <;> rfl
      rw [hred]
      refine ⟨?_, pw, pl⟩
      rw [pv]
      congr 2
  | cons yj ys ih =>
      intro c
      cases zs with
      | nil =>
          refine ⟨?_, ?_, ?_⟩
          · simp [mulInner, val, Nat.mod_one]
          · intro d hd; simp [mulInner] at hd
          · simp [mulInner]
      | cons z zs =>
          obtain ⟨ihv, ihw, ihl⟩ := ih zs ((c + xi * yj + z) / BASE)
          refine ⟨?_, ?_, ?_⟩
          · show (c + xi * yj + z) % BASE +
              BASE * val (mulInner xi zs ys ((c + xi * yj + z) / BASE)) = _
            rw [ihv, add_base_mul_mod _ _ _ (Nat.mod_lt _ BASE_pos)]
            have h2 : BASE * BASE ^ zs.length = BASE ^ (z :: zs).length := by
              simp [List.length_cons, pow_succ]; ring
            rw [h2]
            congr 1
            have hmd := Nat.mod_add_div (c + xi * yj + z) BASE
            simp only [val_cons]
            calc (c + xi * yj + z) % BASE +
                  BASE * ((c + xi * yj + z) / BASE + xi * val ys + val zs)
                = ((c + xi * yj + z) % BASE + BASE * ((c + xi * yj + z) / BASE)) +
                  BASE * (xi * val ys) + BASE * val zs := by ring
              _ = (c + xi * yj + z) + BASE * (xi * val ys) + BASE * val zs := by
                  rw [hmd]
              _ = c + xi * (yj + BASE * val ys) + (z + BASE * val zs) := by ring
          · intro d hd
            rcases List.mem_cons.mp hd with h | h
            · subst h; exact Nat.mod_lt _ BASE_pos
            · exact ihw d h
          · show (mulInner xi zs ys ((c + xi * yj + z) / BASE)).length + 1 =
              zs.length + 1
            rw [ihl]

/-- Outer loop of `dwa_mulu`: accumulates the full product, truncated to the
product-array width. -/
theorem muluOuter_spec {y : List Nat} : ∀ (xs zs : List Nat),
    (∀ d ∈ zs, d < BASE) →
    val (muluOuter y xs zs) = (val zs + val xs * val y) % BASE ^ zs.length ∧
      (∀ d ∈ muluOuter y xs zs, d < BASE) ∧
      (muluOuter y xs zs).length = zs.length := by
  intro xs
  induction xs with
  | nil =>
      intro zs hw
      refine ⟨?_, hw, rfl⟩
      show val zs = (val zs + val [] * val y) % BASE ^ zs.length
      have : val zs < BASE ^ zs.length := val_lt zs hw
      simp [val, Nat.mod_eq_of_lt this]
  | cons xi xs ih =>
      intro zs hw
      obtain ⟨iv, iw, il⟩ := mulInner_spec xi zs y 0
      cases hzs : mulInner xi zs y 0 with
      | nil =>
          have hz0 : zs.length = 0 := by rw [← il, hzs]; rfl
          have hzs0 : zs = [] := List.length_eq_zero.mp hz0
          subst hzs0
          have hred : muluOuter y (xi :: xs) [] = [] := by
            simp only [muluOuter]
            rw [hzs]
          rw [hred]
          refine ⟨?_, ?_, rfl⟩
          · simp [val, Nat.mod_one]
          · intro d hd; simp at hd
      | cons z0 rest =>
          have hred : muluOuter y (xi :: xs) zs = z0 :: muluOuter y xs rest := by
            simp only [muluOuter]
            rw [hzs]
          have hrw : ∀ d ∈ rest, d < BASE :=
            fun d hd => iw d (by rw [hzs]; exact List.mem_cons_of_mem z0 hd)
          have hz0B : z0 < BASE := iw z0 (by rw [hzs]; exact List.mem_cons_self _ _)
          have hlen : zs.length = rest.length + 1 := by rw [← il, hzs]; rfl
          obtain ⟨ihv, ihw, ihl⟩ := ih rest hrw
          refine ⟨?_, ?_, ?_⟩
          · rw [hred, val_cons, ihv]
            rw [add_base_mul_mod _ _ _ hz0B]
            have hpow : BASE * BASE ^ rest.length = BASE ^ zs.length := by
              rw [hlen, pow_succ]; ring
            rw [hpow]
            have hv' : z0 + BASE * val rest =
                (0 + xi * val y + val zs) % BASE ^ zs.length := by
              rw [← val_cons, ← hzs, iv]
            have hexp : z0 + BASE * (val rest + val xs * val y) =
                (z0 + BASE * val rest) + BASE * (val xs * val y) := by ring
            rw [hexp, hv', Nat.mod_add_mod]
            congr 1
            simp only [val_cons]
            ring
          · intro d hd
            rw [hred] at hd
            rcases List.mem_cons.mp hd with h | h
            · subst h; exact hz0B
            · exact ihw d h
          · rw [hred]
            show (muluOuter y xs rest).length + 1 = zs.length
            rw [ihl, hlen]

/-- `dwa_mulu` multiplies modulo `2^(8*SIZE)`, exactly like native unsigned
multiply overflow. -/
theorem dwa_mulu_spec {x y : Dwa} (hx : Wf x) (hy : Wf y) :
    val (dwa_mulu x y) = (val x * val y) % DMOD ∧ Wf (dwa_mulu x y) := by
  have hz0 : ∀ d ∈ List.replicate (2 * SIZE) 0, d < BASE := by
    intro d hd
    have := List.eq_of_mem_replicate hd
    subst this; exact BASE_pos
  obtain ⟨hv, hw, hl⟩ := @muluOuter_spec y x (List.replicate (2 * SIZE) 0) hz0
  have hlen : (List.replicate (2 * SIZE) 0).length = 2 * SIZE :=
    List.length_replicate _ _
  rw [val_replicate_zero, Nat.zero_add, hlen] at hv
  constructor
  · show val ((muluOuter y x (List.replicate (2 * SIZE) 0)).take SIZE) = _
    rw [val_take_of_wf hw, hv]
    show val x * val y % BASE ^ (2 * SIZE) % BASE ^ SIZE = val x * val y % DMOD
    rw [Nat.mod_mod_of_dvd _ (pow_dvd_pow BASE (by norm_num [SIZE]))]
    rfl
  · constructor
    · show ((muluOuter y x (List.replicate (2 * SIZE) 0)).take SIZE).length = SIZE
      rw [List.length_take, hl, hlen]
      simp [SIZE]
    · intro d hd
      exact hw d (List.mem_of_mem_take hd)

/-- Dropping `k` digits divides the value by `BASE^k`. -/
theorem val_drop {x : List Nat} (hw : ∀ d ∈ x, d < BASE) (k : Nat) :
    val (x.drop k) = val x / BASE ^ k := by
  rcases le_or_lt x.length k with hk | hk
  · rw [List.drop_eq_nil_of_le hk]
    have : val x < BASE ^ k := by
      calc val x < BASE ^ x.length := val_lt x hw
        _ ≤ BASE ^ k := Nat.pow_le_pow_right (by norm_num [BASE]) hk
    rw [Nat.div_eq_of_lt this]
    rfl
  · have hsplit := val_take_add_drop x k
    have htkl : (x.take k).length = k := length_take_of_le (le_of_lt hk)
    have htklt : val (x.take k) < BASE ^ k := by
      have := val_lt (x.take k) (fun d hd => hw d (List.mem_of_mem_take hd))
      rwa [htkl] at this
    rw [htkl] at hsplit
    rw [hsplit, Nat.add_mul_div_left _ _ (Nat.pos_pow_of_pos _ BASE_pos),
      Nat.div_eq_of_lt htklt]
    omega

/-- `dwa_lsh` multiplies by `2^n` modulo the double-word width
(shift amounts below the width). -/
theorem dwa_lsh_spec {x : Dwa} (hx : Wf x) {n : Nat} (hn : n < 8 * SIZE) :
    val (dwa_lsh x n) = (val x * 2 ^ n) % DMOD ∧ Wf (dwa_lsh x n) := by
  have hk : n / 8 ≤ SIZE := by omega
  have htw : ∀ d ∈ List.replicate (n / 8) 0 ++ x.take (SIZE - n / 8), d < BASE := by
    intro d hd
    rcases List.mem_append.mp hd with h | h
    · have := List.eq_of_mem_replicate h
      subst this; exact BASE_pos
    · exact hx.2 d (List.mem_of_mem_take h)
  have htl : (List.replicate (n / 8) 0 ++ x.take (SIZE - n / 8)).length = SIZE := by
    rw [List.length_append, List.length_replicate, List.length_take, hx.1]
    omega
  have htv : val (List.replicate (n / 8) 0 ++ x.take (SIZE - n / 8)) =
      (val x * BASE ^ (n / 8)) % DMOD := by
    rw [val_append, val_replicate_zero, List.length_replicate, Nat.zero_add]
    rw [val_take_of_wf hx.2]
    have hsplit : DMOD = BASE ^ (SIZE - n / 8) * BASE ^ (n / 8) := by
      show BASE ^ SIZE = _
      rw [← pow_add]
      congr 1
      omega
    rw [hsplit, Nat.mul_mod_mul_right]
    ring
  have hpow : BASE ^ (n / 8) = 2 ^ (8 * (n / 8)) := by
    show (256 : Nat) ^ (n / 8) = 2 ^ (8 * (n / 8))
    rw [show (256 : Nat) = 2 ^ 8 from rfl, ← pow_mul]
  have hnn : n = 8 * (n / 8) + n % 8 := (Nat.div_add_mod n 8).symm
  by_cases hn8 : 0 < n % 8
  · have he : dwa_lsh x n =
        (prod SIZE (List.replicate (n / 8) 0 ++ x.take (SIZE - n / 8)) (2 ^ (n % 8))).1 := by
      simp only [dwa_lsh]
      rw [if_pos hn8]
    have h28 : (2 : Nat) ^ (n % 8) < BASE := by
      have : n % 8 < 8 := Nat.mod_lt _ (by norm_num)
      calc (2 : Nat) ^ (n % 8) ≤ 2 ^ 7 := Nat.pow_le_pow_right (by norm_num) (by omega)
        _ < 256 := by norm_num [BASE]
    have htake : (List.replicate (n / 8) 0 ++ x.take (SIZE - n / 8)).take SIZE =
        List.replicate (n / 8) 0 ++ x.take (SIZE - n / 8) :=
      List.take_of_length_le (le_of_eq htl)
    have hpe : prod SIZE (List.replicate (n / 8) 0 ++ x.take (SIZE - n / 8))
        (2 ^ (n % 8)) = prodAux (2 ^ (n % 8))
        (List.replicate (n / 8) 0 ++ x.take (SIZE - n / 8)) 0 := by
      unfold prod
      rw [htake]
    have hfst := prodAux_fst (2 ^ (n % 8)) h28 _ 0 htw
    have hfw := (prodAux_spec (2 ^ (n % 8)) h28 _ 0 htw).2
    constructor
    · rw [he, hpe, hfst, htl, htv, Nat.zero_add]
      have hcong : 2 ^ (n % 8) * (val x * BASE ^ (n / 8) % DMOD) ≡
          2 ^ (n % 8) * (val x * BASE ^ (n / 8)) [MOD DMOD] :=
        (Nat.mod_modEq _ _).mul_left _
      rw [Nat.ModEq] at hcong
      show 2 ^ (n % 8) * (val x * BASE ^ (n / 8) % DMOD) % DMOD = _
      rw [hcong]
      congr 1
      calc 2 ^ (n % 8) * (val x * BASE ^ (n / 8))
          = val x * (2 ^ (8 * (n / 8)) * 2 ^ (n % 8)) := by rw [hpow]; ring
        _ = val x * 2 ^ (8 * (n / 8) + n % 8) := by rw [← pow_add]
        _ = val x * 2 ^ n := by rw [← hnn]
    · constructor
      · rw [he, hpe, hfw.2, htl]
      · intro d hd
        rw [he, hpe] at hd
        exact hfw.1 d hd
  · have hn0 : n % 8 = 0 := by omega
    have he : dwa_lsh x n = List.replicate (n / 8) 0 ++ x.take (SIZE - n / 8) := by
      simp only [dwa_lsh]
      rw [if_neg hn8]
    rw [he]
    refine ⟨?_, htl, htw⟩
    rw [htv]
    congr 2
    rw [hpow]
    congr 1
    omega

/-- `dwa_rshl` divides by `2^n` (logical shift, shift amounts below the
width). -/
theorem dwa_rshl_spec {x : Dwa} (hx : Wf x) {n : Nat} (hn : n < 8 * SIZE) :
    val (dwa_rshl x n) = val x / 2 ^ n ∧ Wf (dwa_rshl x n) := by
  have hk : n / 8 < SIZE := by omega
  have hmin : min (n / 8) SIZE = n / 8 := Nat.min_eq_left (by omega)
  have htw : ∀ d ∈ x.drop (n / 8) ++ List.replicate (min (n / 8) SIZE) 0, d < BASE := by
    intro d hd
    rcases List.mem_append.mp hd with h | h
    · exact hx.2 d (List.mem_of_mem_drop h)
    · have := List.eq_of_mem_replicate h
      subst this; exact BASE_pos
  have htl : (x.drop (n / 8) ++ List.replicate (min (n / 8) SIZE) 0).length = SIZE := by
    rw [List.length_append, List.length_drop, List.length_replicate, hx.1, hmin]
    omega
  have htv : val (x.drop (n / 8) ++ List.replicate (min (n / 8) SIZE) 0) =
      val x / BASE ^ (n / 8) := by
    rw [val_append, val_replicate_zero, Nat.mul_zero, Nat.add_zero]
    exact val_drop hx.2 _
  have hpow : BASE ^ (n / 8) = 2 ^ (8 * (n / 8)) := by
    show (256 : Nat) ^ (n / 8) = 2 ^ (8 * (n / 8))
    rw [show (256 : Nat) = 2 ^ 8 from rfl, ← pow_mul]
  by_cases hn8 : 0 < n % 8
  · have he : dwa_rshl x n =
        quot (x.drop (n / 8) ++ List.replicate (min (n / 8) SIZE) 0) (2 ^ (n % 8)) false := by
      simp only [dwa_rshl]
      rw [if_pos hn8]
    have h2pos : 0 < (2 : Nat) ^ (n % 8) := Nat.pos_pow_of_pos _ (by norm_num)
    obtain ⟨hqv, hqw⟩ := quot_div_spec ⟨htl, htw⟩ h2pos
    rw [he]
    constructor
    · rw [hqv, htv, hpow, Nat.div_div_eq_div_mul, ← pow_add]
      congr 2
      omega
    · exact hqw
  · have hn0 : n % 8 = 0 := by omega
    have he : dwa_rshl x n = x.drop (n / 8) ++ List.replicate (min (n / 8) SIZE) 0 := by
      simp only [dwa_rshl]
      rw [if_neg hn8]
    rw [he]
    refine ⟨?_, htl, htw⟩
    rw [htv, hpow]
    congr 2
    omega

end Dwa

namespace Dwa

/-- C1: for every double-word `x` and every nonzero `y`,
`add_u(mul_u(div_u(x,y,false), y), div_u(x,y,true)) = x` — `dwa_divu`
returns the true quotient and remainder on all three code paths, including
the non-normalizing single-correction long division. -/
theorem C1_div_identity (x y : Dwa) (hx : Wf x) (hy : Wf y)
    (hyv : val y ≠ 0) :
    dwa_addu (dwa_mulu (dwa_divu x y false) y) (dwa_divu x y true) = x := by
  obtain ⟨hqv, hqw, hrv, hrw⟩ := dwa_divu_spec hx hy hyv
  obtain ⟨hmv, hmw⟩ := dwa_mulu_spec hqw hy
  obtain ⟨hav, haw⟩ := dwa_addu_spec hmw hrw
  apply val_inj haw.2 hx.2 (by rw [haw.1, hx.1])
  rw [hav, hmv, hqv, hrv, Nat.mod_add_mod, Nat.div_add_mod']
  exact Nat.mod_eq_of_lt (val_lt_DMOD hx)

/-- Witness for C1 at a concrete input with a multi-digit divisor
(999 = two base-256 digits, so the long-division path runs). -/
theorem C1_div_identity_witness :
    Wf (natToDwa 123333332211) ∧ Wf (natToDwa 999) ∧ val (natToDwa 999) ≠ 0 ∧
    dwa_addu (dwa_mulu (dwa_divu (natToDwa 123333332211) (natToDwa 999) false)
      (natToDwa 999)) (dwa_divu (natToDwa 123333332211) (natToDwa 999) true) =
      natToDwa 123333332211 :=
  ⟨by decide, by decide, by decide,
    C1_div_identity (natToDwa 123333332211) (natToDwa 999)
      (by decide) (by decide) (by decide)⟩

/-- C5: `dwa_mulu` is multiplication modulo `2^(8*SIZE)` (low `SIZE` digits
of the schoolbook product), and in particular
`mul_u(from_uint 0xFFFFFFFF, from_uint 0xFFFFFFFF)` prints as
`fffffffe00000001` in hex. -/
theorem C5_mulu_wraps :
    (∀ x y : Dwa, Wf x → Wf y → val (dwa_mulu x y) = (val x * val y) % DMOD) ∧
    dwa_tostru (dwa_mulu (dwa_fromuint 0xFFFFFFFF) (dwa_fromuint 0xFFFFFFFF)) 16 =
      [102, 102, 102, 102, 102, 102, 102, 101, 48, 48, 48, 48, 48, 48, 48, 49] ∧
    val (dwa_mulu (dwa_fromuint 0xFFFFFFFF) (dwa_fromuint 0xFFFFFFFF)) =
      0xfffffffe00000001 :=
  ⟨fun _ _ hx hy => (dwa_mulu_spec hx hy).1, by decide, by decide⟩

/-- Witness for C5's universally quantified part at a concrete input. -/
theorem C5_mulu_wraps_witness :
    Wf (dwa_fromuint 123456789) ∧ Wf (dwa_fromuint 999) ∧
    val (dwa_mulu (dwa_fromuint 123456789) (dwa_fromuint 999)) =
      (val (dwa_fromuint 123456789) * val (dwa_fromuint 999)) % DMOD :=
  ⟨by decide, by decide,
    C5_mulu_wraps.1 (dwa_fromuint 123456789) (dwa_fromuint 999)
      (by decide) (by decide)⟩

/-- C8: `lsh(rshl(x, n), n)` clears the low `n` bits of `x` and leaves all
higher bits unchanged, for `0 ≤ n < 8*SIZE`. -/
theorem C8_shift_identity (x : Dwa) (n : Nat) (hx : Wf x) (hn : n < 8 * SIZE) :
    val (dwa_lsh (dwa_rshl x n) n) = val x / 2 ^ n * 2 ^ n ∧
    ∀ i : Nat, Nat.testBit (val (dwa_lsh (dwa_rshl x n) n)) i =
      (decide (n ≤ i) && Nat.testBit (val x) i) := by
  obtain ⟨hrv, hrw⟩ := dwa_rshl_spec hx hn
  obtain ⟨hlv, hlw⟩ := dwa_lsh_spec hrw hn
  have hle : val x / 2 ^ n * 2 ^ n ≤ val x := Nat.div_mul_le_self _ _
  have hxD : val x < DMOD := val_lt_DMOD hx
  have hv : val (dwa_lsh (dwa_rshl x n) n) = val x / 2 ^ n * 2 ^ n := by
    rw [hlv, hrv]
    exact Nat.mod_eq_of_lt (by omega)
  refine ⟨hv, ?_⟩
  intro i
  rw [hv, Nat.testBit_to_div_mod, Nat.testBit_to_div_mod]
  by_cases hni : n ≤ i
  · rw [decide_eq_true hni, Bool.true_and]
    have hsplit : (2 : Nat) ^ i = 2 ^ n * 2 ^ (i - n) := by
      rw [← pow_add]
      congr 1
      omega
    have h1 : val x / 2 ^ n * 2 ^ n / 2 ^ i = val x / 2 ^ i := by
      rw [hsplit, ← Nat.div_div_eq_div_mul,
        Nat.mul_div_cancel _ (Nat.pos_pow_of_pos _ (by norm_num)),
        Nat.div_div_eq_div_mul, ← pow_add]
    rw [h1]
  · push_neg at hni
    have hd : decide (n ≤ i) = false := by
      simp [hni]
    rw [hd, Bool.false_and]
    have hsplit : (2 : Nat) ^ n = 2 ^ i * 2 ^ (n - i) := by
      rw [← pow_add]
      congr 1
      omega
    have h1 : ∀ m : Nat, m * 2 ^ n / 2 ^ i = m * 2 ^ (n - i) := by
      intro m
      rw [hsplit, show m * (2 ^ i * 2 ^ (n - i)) = m * 2 ^ (n - i) * 2 ^ i from by ring,
        Nat.mul_div_cancel _ (Nat.pos_pow_of_pos _ (by norm_num))]
    have h2 : val x / 2 ^ n * 2 ^ (n - i) % 2 = 0 := by
      have h3 : (2 : Nat) ^ (n - i) = 2 * 2 ^ (n - i - 1) := by
        rw [← pow_succ']
        congr 1
        omega
      rw [h3]
      have : val x / 2 ^ n * (2 * 2 ^ (n - i - 1)) =
          2 * (val x / 2 ^ n * 2 ^ (n - i - 1)) := by ring
      rw [this]
      exact Nat.mul_mod_right _ _
    rw [h1, h2]
    simp

/-- Witness for C8 at a concrete input. -/
theorem C8_shift_identity_witness :
    Wf (natToDwa 123456789123456789) ∧ 13 < 8 * SIZE ∧
    val (dwa_lsh (dwa_rshl (natToDwa 123456789123456789) 13) 13) =
      val (natToDwa 123456789123456789) / 2 ^ 13 * 2 ^ 13 :=
  ⟨by decide, by decide,
    (C8_shift_identity (natToDwa 123456789123456789) 13 (by decide) (by decide)).1⟩

/-- C9: dividing by the zero value is not an error: both `dwa_divu` and
`dwa_div` return the all-zero double word for both values of the `mod`
flag. -/
theorem C9_div_by_zero (x : Dwa) (md : Bool) :
    dwa_divu x zeroDwa md = zeroDwa ∧ dwa_div x zeroDwa md = zeroDwa := by
  have hdivu : ∀ z : Dwa, dwa_divu z zeroDwa md = zeroDwa := by
    intro z
    simp only [dwa_divu]
    rw [if_pos (show len zeroDwa = 1 from rfl),
      if_pos (show zeroDwa.getD 0 0 = 0 from rfl)]
  have hneg0 : dwa_neg zeroDwa = zeroDwa := by decide
  refine ⟨hdivu x, ?_⟩
  simp only [dwa_div]
  rw [show (if sign zeroDwa ≠ 0 then dwa_neg zeroDwa else zeroDwa) = zeroDwa by decide]
  split
  · rw [hdivu, hneg0]
  · rw [hdivu]

theorem DMOD_cast : (DMOD : Int) = 2 ^ 64 := by norm_num [DMOD, BASE, SIZE]

theorem DMOD_eq : DMOD = 2 ^ 64 := by norm_num [DMOD, BASE, SIZE]

theorem sval_of_lt {z : Dwa} (hz : Wf z) (h : val z < 2 ^ 63) :
    sval z = (val z : Int) := by
  rw [sval, if_neg]
  simp [(sign_eq_zero_iff hz).mpr h]

theorem sval_of_ge {z : Dwa} (hz : Wf z) (h : 2 ^ 63 ≤ val z) :
    sval z = (val z : Int) - DMOD := by
  rw [sval, if_pos]
  intro h0
  exact absurd ((sign_eq_zero_iff hz).mp h0) (not_lt.mpr h)

/-- Magnitude extraction in `dwa_div`: conditionally negating a signed value
yields its absolute value. -/
theorem val_mag {x : Dwa} (hx : Wf x) :
    val (if sign x ≠ 0 then dwa_neg x else x) = (sval x).natAbs ∧
      Wf (if sign x ≠ 0 then dwa_neg x else x) := by
  by_cases hs : sign x = 0
  · rw [if_neg (by simp [hs])]
    have hlt : val x < 2 ^ 63 := (sign_eq_zero_iff hx).mp hs
    rw [sval_of_lt hx hlt]
    exact ⟨(Int.natAbs_ofNat _).symm, hx⟩
  · rw [if_pos hs]
    have hge : 2 ^ 63 ≤ val x := by
      by_contra h
      push_neg at h
      exact hs ((sign_eq_zero_iff hx).mpr h)
    have hxD : val x < DMOD := val_lt_DMOD hx
    refine ⟨?_, wf_dwa_neg hx⟩
    rw [val_dwa_neg hx, sval_of_ge hx hge]
    have h1 : (DMOD - val x) % DMOD = DMOD - val x := by
      apply Nat.mod_eq_of_lt
      have h2 : (1 : Nat) ≤ val x := by
        calc (1 : Nat) ≤ 2 ^ 63 := by norm_num
          _ ≤ val x := hge
      omega
    rw [h1]
    have h2 : ((val x : Int) - DMOD) = -(((DMOD - val x : Nat) : Int)) := by
      rw [Nat.cast_sub (le_of_lt hxD)]
      ring
    rw [h2, Int.natAbs_neg, Int.natAbs_ofNat]

theorem natAbs_sval_le {x : Dwa} (hx : Wf x) : (sval x).natAbs ≤ 2 ^ 63 := by
  rw [← (val_mag hx).1]
  by_cases hs : sign x = 0
  · rw [if_neg (by simp [hs])]
    exact le_of_lt ((sign_eq_zero_iff hx).mp hs)
  · rw [if_pos hs]
    have hge : 2 ^ 63 ≤ val x := by
      by_contra h
      push_neg at h
      exact hs ((sign_eq_zero_iff hx).mpr h)
    rw [val_dwa_neg hx]
    have hD : DMOD = 2 ^ 64 := DMOD_eq
    calc (DMOD - val x) % DMOD ≤ DMOD - val x := Nat.mod_le _ _
      _ ≤ 2 ^ 63 := by omega

theorem sval_neg_of_le {t : Dwa} (ht : Wf t) (h : val t ≤ 2 ^ 63) :
    sval (dwa_neg t) = -(val t : Int) := by
  rcases Nat.eq_zero_or_pos (val t) with h0 | h0
  · have hv : val (dwa_neg t) = 0 := by
      rw [val_dwa_neg ht, h0]
      simp
    rw [sval_of_lt (wf_dwa_neg ht) (by rw [hv]; norm_num), hv, h0]
    simp
  · have hD : DMOD = 2 ^ 64 := DMOD_eq
    have hv : val (dwa_neg t) = DMOD - val t := by
      rw [val_dwa_neg ht]
      exact Nat.mod_eq_of_lt (by omega)
    have hge : 2 ^ 63 ≤ val (dwa_neg t) := by
      rw [hv]
      omega
    rw [sval_of_ge (wf_dwa_neg ht) hge, hv,
      Nat.cast_sub (by omega : val t ≤ DMOD)]
    ring

theorem sval_eq_wrap_of_le {t : Dwa} (ht : Wf t) (h : val t ≤ 2 ^ 63) :
    sval t = wrapS64 (val t : Int) := by
  rcases lt_or_eq_of_le h with hlt | heq
  · rw [sval_of_lt ht hlt, wrapS64, DMOD_cast]
    have h0 : (0 : Int) ≤ (val t : Int) := Int.ofNat_nonneg _
    have h1 : (val t : Int) < 2 ^ 63 := by exact_mod_cast hlt
    omega
  · have hge : 2 ^ 63 ≤ val t := le_of_eq heq.symm
    rw [sval_of_ge ht hge, wrapS64, DMOD_cast, heq]
    have h1 : ((2 ^ 63 : Nat) : Int) = 2 ^ 63 := by norm_num
    rw [h1]
    omega

theorem wrap_neg_of_le {q : Nat} (h : q ≤ 2 ^ 63) :
    wrapS64 (-(q : Int)) = -(q : Int) := by
  rw [wrapS64, DMOD_cast]
  have h1 : (q : Int) ≤ 2 ^ 63 := by exact_mod_cast h
  have h0 : (0 : Int) ≤ (q : Int) := Int.ofNat_nonneg _
  omega

theorem neg_tmod (A B : Int) : Int.tmod (-A) B = -(Int.tmod A B) := by
  rw [Int.tmod_def, Int.tmod_def, Int.neg_tdiv]
  ring

/-- C7 counterexample: for `x = 1`, `y = -2` the operand signs differ but the
quotient `dwa_div(x, y, false)` is zero, hence not negative — the claimed
"negative iff the signs differ" fails when the magnitude quotient is zero. -/
theorem C7_counterexample :
    sval (dwa_fromint 1) > 0 ∧ sval (dwa_fromint (-2)) < 0 ∧
    ¬(sval (dwa_div (dwa_fromint 1) (dwa_fromint (-2)) false) < 0) ∧
    sign (dwa_fromint 1) ≠ sign (dwa_fromint (-2)) ∧
    sign (dwa_div (dwa_fromint 1) (dwa_fromint (-2)) false) = 0 := by decide

/-- C7 (amended): `dwa_div` is truncating-toward-zero signed division — the
quotient is the wrap of `tdiv` of the signed values (so it is negative iff
the signs differ *and* the magnitude quotient is nonzero, with the single
wrap case `dwa_min / -1`), and the remainder is `tmod`, which takes the
dividend's sign whenever it is nonzero; both have the magnitudes of the
unsigned division of `|x|` by `|y|`. -/
theorem C7_div_truncating (x y : Dwa) (hx : Wf x) (hy : Wf y)
    (hyv : sval y ≠ 0) :
    sval (dwa_div x y false) = wrapS64 (Int.tdiv (sval x) (sval y)) ∧
    sval (dwa_div x y true) = Int.tmod (sval x) (sval y) := by
  obtain ⟨hmxv, hmxw⟩ := val_mag hx
  obtain ⟨hmyv, hmyw⟩ := val_mag hy
  have hbne : val (if sign y ≠ 0 then dwa_neg y else y) ≠ 0 := by
    rw [hmyv]
    exact Int.natAbs_ne_zero.mpr hyv
  obtain ⟨hqv, hqw, hrv, hrw⟩ := dwa_divu_spec hmxw hmyw hbne
  rw [hmxv, hmyv] at hqv hrv
  have hdeq : ∀ md : Bool, dwa_div x y md =
      if (md = false ∧ sign x ≠ sign y) ∨ (md = true ∧ sign x ≠ 0)
      then dwa_neg (dwa_divu (if sign x ≠ 0 then dwa_neg x else x)
        (if sign y ≠ 0 then dwa_neg y else y) md)
      else dwa_divu (if sign x ≠ 0 then dwa_neg x else x)
        (if sign y ≠ 0 then dwa_neg y else y) md := by
    intro md
    simp only [dwa_div]
  have ha63 : (sval x).natAbs ≤ 2 ^ 63 := natAbs_sval_le hx
  have hb63 : (sval y).natAbs ≤ 2 ^ 63 := natAbs_sval_le hy
  have hbpos : 0 < (sval y).natAbs :=
    Nat.pos_of_ne_zero (Int.natAbs_ne_zero.mpr hyv)
  have hq63 : (sval x).natAbs / (sval y).natAbs ≤ 2 ^ 63 :=
    le_trans (Nat.div_le_self _ _) ha63
  have hr63 : (sval x).natAbs % (sval y).natAbs < 2 ^ 63 := by
    have := Nat.mod_lt (sval x).natAbs hbpos
    omega
  have hsvalq : sval (dwa_divu (if sign x ≠ 0 then dwa_neg x else x)
      (if sign y ≠ 0 then dwa_neg y else y) false) =
      wrapS64 (((sval x).natAbs / (sval y).natAbs : Nat) : Int) := by
    rw [← hqv]
    exact sval_eq_wrap_of_le hqw (by rw [hqv]; exact hq63)
  have hsvalnq : sval (dwa_neg (dwa_divu (if sign x ≠ 0 then dwa_neg x else x)
      (if sign y ≠ 0 then dwa_neg y else y) false)) =
      -(((sval x).natAbs / (sval y).natAbs : Nat) : Int) := by
    rw [← hqv]
    exact sval_neg_of_le hqw (by rw [hqv]; exact hq63)
  have hsvalr : sval (dwa_divu (if sign x ≠ 0 then dwa_neg x else x)
      (if sign y ≠ 0 then dwa_neg y else y) true) =
      (((sval x).natAbs % (sval y).natAbs : Nat) : Int) := by
    rw [← hrv]
    exact sval_of_lt hrw (by rw [hrv]; exact hr63)
  have hsvalnr : sval (dwa_neg (dwa_divu (if sign x ≠ 0 then dwa_neg x else x)
      (if sign y ≠ 0 then dwa_neg y else y) true)) =
      -(((sval x).natAbs % (sval y).natAbs : Nat) : Int) := by
    rw [← hrv]
    exact sval_neg_of_le hrw (by rw [hrv]; omega)
  set a := (sval x).natAbs with ha
  set b := (sval y).natAbs with hb
  by_cases hsx : sign x = 0 <;> by_cases hsy : sign y = 0
  · -- both nonnegative
    have hxa : ((a : Nat) : Int) = sval x := by
      rw [ha]
      apply Int.natAbs_of_nonneg
      have := (sign_eq_zero_iff hx).mp hsx
      rw [sval_of_lt hx this]
      exact Int.ofNat_nonneg _
    have hya : ((b : Nat) : Int) = sval y := by
      rw [hb]
      apply Int.natAbs_of_nonneg
      have := (sign_eq_zero_iff hy).mp hsy
      rw [sval_of_lt hy this]
      exact Int.ofNat_nonneg _
    constructor
    · rw [hdeq false, if_neg (by simp [hsx, hsy]), hsvalq]
      congr 1
      rw [← hxa, ← hya, Int.ofNat_tdiv]
    · rw [hdeq true, if_neg (by simp [hsx]), hsvalr]
      rw [← hxa, ← hya, ← Int.ofNat_tmod]
  · -- x nonnegative, y negative
    have hxa : ((a : Nat) : Int) = sval x := by
      rw [ha]
      apply Int.natAbs_of_nonneg
      have := (sign_eq_zero_iff hx).mp hsx
      rw [sval_of_lt hx this]
      exact Int.ofNat_nonneg _
    have hya : ((b : Nat) : Int) = -(sval y) := by
      rw [hb, ← Int.natAbs_neg]
      apply Int.natAbs_of_nonneg
      have hge : 2 ^ 63 ≤ val y := by
        by_contra h
        push_neg at h
        exact hsy ((sign_eq_zero_iff hy).mpr h)
      rw [sval_of_ge hy hge, DMOD_cast]
      have : (val y : Int) < 2 ^ 64 := by exact_mod_cast val_lt_DMOD hy
      omega
    have hsy1 : sign y = 1 := by
      have := sign_le_one hy
      omega
    have hye : sval y = -((b : Nat) : Int) := by rw [hya]; ring
    constructor
    · rw [hdeq false, if_pos (Or.inl ⟨rfl, by omega⟩), hsvalnq]
      rw [← wrap_neg_of_le hq63]
      congr 1
      rw [hye, Int.tdiv_neg, ← hxa, Int.ofNat_tdiv]
    · rw [hdeq true, if_neg (by simp [hsx]), hsvalr]
      rw [hye, Int.tmod_neg, ← hxa, ← Int.ofNat_tmod]
  · -- x negative, y nonnegative
    have hxa : ((a : Nat) : Int) = -(sval x) := by
      rw [ha, ← Int.natAbs_neg]
      apply Int.natAbs_of_nonneg
      have hge : 2 ^ 63 ≤ val x := by
        by_contra h
        push_neg at h
        exact hsx ((sign_eq_zero_iff hx).mpr h)
      rw [sval_of_ge hx hge, DMOD_cast]
      have : (val x : Int) < 2 ^ 64 := by exact_mod_cast val_lt_DMOD hx
      omega
    have hya : ((b : Nat) : Int) = sval y := by
      rw [hb]
      apply Int.natAbs_of_nonneg
      have := (sign_eq_zero_iff hy).mp hsy
      rw [sval_of_lt hy this]
      exact Int.ofNat_nonneg _
    have hsx1 : sign x = 1 := by
      have := sign_le_one hx
      omega
    have hxe : sval x = -((a : Nat) : Int) := by rw [hxa]; ring
    constructor
    · rw [hdeq false, if_pos (Or.inl ⟨rfl, by omega⟩), hsvalnq]
      rw [← wrap_neg_of_le hq63]
      congr 1
      rw [hxe, Int.neg_tdiv, ← hya, Int.ofNat_tdiv]
    · rw [hdeq true, if_pos (Or.inr ⟨rfl, by omega⟩), hsvalnr]
      rw [hxe, neg_tmod, ← hya, ← Int.ofNat_tmod]
  · -- both negative
    have hxa : ((a : Nat) : Int) = -(sval x) := by
      rw [ha, ← Int.natAbs_neg]
      apply Int.natAbs_of_nonneg
      have hge : 2 ^ 63 ≤ val x := by
        by_contra h
        push_neg at h
        exact hsx ((sign_eq_zero_iff hx).mpr h)
      rw [sval_of_ge hx hge, DMOD_cast]
      have : (val x : Int) < 2 ^ 64 := by exact_mod_cast val_lt_DMOD hx
      omega
    have hya : ((b : Nat) : Int) = -(sval y) := by
      rw [hb, ← Int.natAbs_neg]
      apply Int.natAbs_of_nonneg
      have hge : 2 ^ 63 ≤ val y := by
        by_contra h
        push_neg at h
        exact hsy ((sign_eq_zero_iff hy).mpr h)
      rw [sval_of_ge hy hge, DMOD_cast]
      have : (val y : Int) < 2 ^ 64 := by exact_mod_cast val_lt_DMOD hy
      omega
    have hsx1 : sign x = 1 := by
      have := sign_le_one hx
      omega
    have hsy1 : sign y = 1 := by
      have := sign_le_one hy
      omega
    have hxe : sval x = -((a : Nat) : Int) := by rw [hxa]; ring
    have hye : sval y = -((b : Nat) : Int) := by rw [hya]; ring
    constructor
    · rw [hdeq false, if_neg (by simp [hsx1, hsy1]), hsvalq]
      congr 1
      rw [hxe, hye, Int.neg_tdiv, Int.tdiv_neg, Int.ofNat_tdiv]
      ring
    · rw [hdeq true, if_pos (Or.inr ⟨rfl, by omega⟩), hsvalnr]
      rw [hxe, hye, neg_tmod, Int.tmod_neg, ← Int.ofNat_tmod]

/-- C6: native round-trips — `dwa_touint (dwa_fromuint v) = v` for every
unsigned long value `v < 2^32`, and `dwa_toint (dwa_fromint v) = v` for every
signed long value `-2^31 ≤ v < 2^31`, including `LONG_MIN = -2^31`. -/
theorem C6_native_roundtrip (u : Nat) (v : Int) (hu : u < UMOD)
    (h1 : -(2 ^ 31) ≤ v) (h2 : v < 2 ^ 31) :
    dwa_touint (dwa_fromuint u) = u ∧ dwa_toint (dwa_fromint v) = v :=
  ⟨touint_fromuint hu, toint_fromint h1 h2⟩

/-- Witness for C6 at concrete inputs, exercising `LONG_MIN`. -/
theorem C6_native_roundtrip_witness :
    3000000000 < UMOD ∧ -(2 ^ 31) ≤ (-(2 ^ 31) : Int) ∧ (-(2 ^ 31) : Int) < 2 ^ 31 ∧
    dwa_touint (dwa_fromuint 3000000000) = 3000000000 ∧
    dwa_toint (dwa_fromint (-(2 ^ 31))) = -(2 ^ 31) := by
  refine ⟨by decide, by decide, by decide, ?_⟩
  exact C6_native_roundtrip 3000000000 (-(2 ^ 31)) (by decide) (by decide) (by decide)

/-- Witness for C7's amended theorem at a concrete input. -/
theorem C7_div_truncating_witness :
    Wf (dwa_fromint 7) ∧ Wf (dwa_fromint (-2)) ∧ sval (dwa_fromint (-2)) ≠ 0 ∧
    sval (dwa_div (dwa_fromint 7) (dwa_fromint (-2)) false) =
      wrapS64 (Int.tdiv (sval (dwa_fromint 7)) (sval (dwa_fromint (-2)))) ∧
    sval (dwa_div (dwa_fromint 7) (dwa_fromint (-2)) true) =
      Int.tmod (sval (dwa_fromint 7)) (sval (dwa_fromint (-2))) := by
  refine ⟨by decide, by decide, by decide, ?_, ?_⟩
  · exact (C7_div_truncating (dwa_fromint 7) (dwa_fromint (-2))
      (by decide) (by decide) (by decide)).1
  · exact (C7_div_truncating (dwa_fromint 7) (dwa_fromint (-2))
      (by decide) (by decide) (by decide)).2

theorem wf_natToDwa (v : Nat) : Wf (natToDwa v) := by
  constructor
  · simp [natToDwa, SIZE]
  · intro d hd
    simp only [natToDwa, List.mem_map] at hd
    obtain ⟨i, _, rfl⟩ := hd
    exact Nat.mod_lt _ BASE_pos

theorem val_natToDwa (v : Nat) : val (natToDwa v) = v % DMOD := by
  show val [v / BASE ^ 0 % BASE, v / BASE ^ 1 % BASE, v / BASE ^ 2 % BASE,
    v / BASE ^ 3 % BASE, v / BASE ^ 4 % BASE, v / BASE ^ 5 % BASE,
    v / BASE ^ 6 % BASE, v / BASE ^ 7 % BASE] = v % DMOD
  simp only [val_cons, val_nil]
  norm_num [BASE, DMOD, SIZE]
  omega

theorem natToDwa_val_eq {x : Dwa} (hx : Wf x) : natToDwa (val x) = x := by
  apply val_inj (wf_natToDwa (val x)).2 hx.2
  · rw [(wf_natToDwa (val x)).1, hx.1]
  · rw [val_natToDwa, Nat.mod_eq_of_lt (val_lt_DMOD hx)]

theorem tolowerB_ge (c : Nat) : c ≤ tolowerB c := by
  unfold tolowerB
  split <;> omega

theorem idxIn_mem : ∀ (l : List Nat) (c i : Nat), idxIn l c = some i → c ∈ l := by
  intro l
  induction l with
  | nil => intro c i h; simp [idxIn] at h
  | cons d ds ih =>
      intro c i h
      unfold idxIn at h
      by_cases he : c = d
      · subst he; exact List.mem_cons_self c ds
      · rw [if_neg he] at h
        cases hj : idxIn ds c with
        | none => rw [hj] at h; simp at h
        | some j => exact List.mem_cons_of_mem d (ih c j hj)

theorem mem_map_le : ∀ c ∈ map, c ≤ 122 := by decide

theorem validB_le {b c : Nat} (h : validB b c = true) : c ≤ 122 := by
  unfold validB at h
  cases hs : strchrMap (tolowerB c) with
  | none => rw [hs] at h; simp at h
  | some i =>
      by_cases h0 : tolowerB c = 0
      · have hc0 : c = 0 := by
          unfold tolowerB at h0
          split at h0 <;> omega
        omega
      · have hm : tolowerB c ∈ map := by
          unfold strchrMap at hs
          rw [if_neg h0] at hs
          exact idxIn_mem _ _ _ hs
        have h1 := mem_map_le _ hm
        have h2 := tolowerB_ge c
        omega

set_option maxRecDepth 16000

theorem validB_not_special_aux : ∀ b < 37, ∀ c < 123, validB b c = true →
    isspaceB c = false ∧ c ≠ 45 ∧ c ≠ 43 := by decide

theorem validB_not_special {b c : Nat} (hb : b ≤ 36) (h : validB b c = true) :
    isspaceB c = false ∧ c ≠ 45 ∧ c ≠ 43 :=
  validB_not_special_aux b (by omega) c (by have := validB_le h; omega) h

theorem validB_zero_aux : ∀ b < 37, validB b 0 = false := by decide

theorem digit_map_valid : ∀ b < 37, ∀ d < 36, d < b →
    validB b (map.getD d 0) = true := by decide

theorem digitIdx_map : ∀ d < 36, digitIdx (map.getD d 0) = d := by decide

theorem map_getD_facts : ∀ d < 36, 48 ≤ map.getD d 0 ∧ map.getD d 0 ≤ 122 ∧
    isspaceB (map.getD d 0) = false ∧ map.getD d 0 ≠ 45 ∧
    map.getD d 0 ≠ 43 := by decide

theorem hex_char_ne : ∀ d < 16, map.getD d 0 ≠ 120 ∧ map.getD d 0 ≠ 88 := by decide

theorem validB16_ne_aux : ∀ c < 123, validB 16 c = true → c ≠ 120 ∧ c ≠ 88 := by
  decide

theorem validB16_ne {c : Nat} (h : validB 16 c = true) : c ≠ 120 ∧ c ≠ 88 :=
  validB16_ne_aux c (by have := validB_le h; omega) h

theorem isxdigitB_le {c : Nat} (h : isxdigitB c = true) : c ≤ 102 := by
  unfold isxdigitB at h
  simp only [Bool.or_eq_true, Bool.and_eq_true, decide_eq_true_eq] at h
  omega

theorem isxdigit_valid16_aux : ∀ c < 123, isxdigitB c = true →
    validB 16 c = true := by decide

theorem isxdigit_valid16 {c : Nat} (h : isxdigitB c = true) :
    validB 16 c = true :=
  isxdigit_valid16_aux c (by have := isxdigitB_le h; omega) h

theorem hornerScan_nil (b v : Nat) : hornerScan b v [] = v := rfl

theorem hornerScan_cons (b v c : Nat) (cs : List Nat) :
    hornerScan b v (c :: cs) = hornerScan b (v * b + digitIdx c) cs := rfl

theorem hornerScan_append (b : Nat) : ∀ (l1 l2 : List Nat) (v : Nat),
    hornerScan b v (l1 ++ l2) = hornerScan b (hornerScan b v l1) l2 := by
  intro l1
  induction l1 with
  | nil => intro l2 v; rfl
  | cons c cs ih => intro l2 v; exact ih l2 (v * b + digitIdx c)

theorem hornerScan_ge {b : Nat} (hb : 1 ≤ b) : ∀ (l : List Nat) (v : Nat),
    v ≤ hornerScan b v l := by
  intro l
  induction l with
  | nil => intro v; exact le_refl v
  | cons c cs ih =>
      intro v
      calc v ≤ v * b + digitIdx c := by
            have := Nat.le_mul_of_pos_right v hb
            omega
        _ ≤ hornerScan b (v * b + digitIdx c) cs := ih _

theorem hornerScan_prefix_mul_le {b : Nat} (hb : 1 ≤ b) (v : Nat)
    (p1 : List Nat) (c : Nat) (p2 : List Nat) :
    hornerScan b v p1 * b ≤ hornerScan b v (p1 ++ c :: p2) := by
  rw [hornerScan_append, hornerScan_cons]
  calc hornerScan b v p1 * b ≤ hornerScan b v p1 * b + digitIdx c := Nat.le_add_right _ _
    _ ≤ _ := hornerScan_ge hb _ _

theorem accGo_eq_horner {b : Nat} (hb : 1 ≤ b) : ∀ (l : List Nat) (v : Nat),
    hornerScan b v l < DMOD → accGo b v l = hornerScan b v l := by
  intro l
  induction l with
  | nil => intro v _; rfl
  | cons c cs ih =>
      intro v h
      rw [hornerScan_cons] at h
      have hlt : v * b + digitIdx c < DMOD :=
        lt_of_le_of_lt (hornerScan_ge hb cs _) h
      show accGo b ((v * b + digitIdx c) % DMOD) cs = _
      rw [Nat.mod_eq_of_lt hlt, hornerScan_cons]
      exact ih _ h

/-- `prod(t, t, SIZE, b)` as used by the scan loop of `dwa_fromstr`:
the digits hold the wrapped product, the carry its overflow. -/
theorem prod_SIZE_spec {t : Dwa} (ht : Wf t) {b : Nat} (hb : b < BASE) :
    val (prod SIZE t b).1 = val t * b % DMOD ∧
    (prod SIZE t b).2 = val t * b / DMOD ∧ Wf (prod SIZE t b).1 := by
  have htake : t.take SIZE = t := by
    rw [← ht.1]
    exact List.take_length t
  have hfst := prodAux_fst b hb t 0 ht.2
  have hsnd := prodAux_snd b hb t 0 ht.2
  obtain ⟨_, hw, hl⟩ := prodAux_spec b hb t 0 ht.2
  have hD : BASE ^ t.length = DMOD := by rw [ht.1]; rfl
  refine ⟨?_, ?_, ?_, ?_⟩
  · show val (prodAux b (t.take SIZE) 0).1 = _
    rw [htake, hfst, hD, Nat.zero_add, Nat.mul_comm]
  · show (prodAux b (t.take SIZE) 0).2 = _
    rw [htake, hsnd, hD, Nat.zero_add, Nat.mul_comm]
  · show (prodAux b (t.take SIZE) 0).1.length = SIZE
    rw [htake, hl, ht.1]
  · show ∀ d ∈ (prodAux b (t.take SIZE) 0).1, d < BASE
    rw [htake]
    exact hw

/-- The scan loop consumes the whole digit string when no multiply step
overflows, accumulating `accGo`. -/
theorem scanGo_complete {b : Nat} (hb36 : b ≤ 36) :
    ∀ (ds : List Nat) (t : Dwa), Wf t →
    (∀ c ∈ ds, validB b c = true) →
    (∀ p1 c p2, ds = p1 ++ c :: p2 → accGo b (val t) p1 * b < DMOD) →
    scanGo b ds t = (natToDwa (accGo b (val t) ds), []) := by
  intro ds
  induction ds with
  | nil =>
      intro t ht _ _
      show (t, ([] : List Nat)) = (natToDwa (val t), [])
      rw [natToDwa_val_eq ht]
  | cons c cs ih =>
      intro t ht hv hnc
      have hbB : b < BASE := by norm_num [BASE]; omega
      obtain ⟨hp1, hp2, hpw⟩ := prod_SIZE_spec ht hbB
      have hnoc : val t * b < DMOD := by
        have h0 := hnc [] c cs rfl
        simpa [accGo] using h0
      have hc2 : (prod SIZE t b).2 = 0 := by
        rw [hp2]
        exact Nat.div_eq_of_lt hnoc
      have ht'v : val (dwa_add (prod SIZE t b).1 (dwa_fromuint (digitIdx c))) =
          (val t * b + digitIdx c) % DMOD := by
        show val (dwa_addu _ _) = _
        rw [(dwa_addu_spec hpw (dwa_fromuint_spec _).2).1, hp1,
          (dwa_fromuint_spec (digitIdx c)).1, ← Nat.add_mod]
      have ht'w : Wf (dwa_add (prod SIZE t b).1 (dwa_fromuint (digitIdx c))) :=
        (dwa_addu_spec hpw (dwa_fromuint_spec _).2).2
      have hred : scanGo b (c :: cs) t =
          if 0 < (prod SIZE t b).2 then ((prod SIZE t b).1, c :: cs)
          else if validB b (cs.getD 0 0)
            then scanGo b cs (dwa_add (prod SIZE t b).1 (dwa_fromuint (digitIdx c)))
            else (dwa_add (prod SIZE t b).1 (dwa_fromuint (digitIdx c)), cs) := rfl
      rw [hred, hc2, if_neg (lt_irrefl 0)]
      have hacc : accGo b (val t) (c :: cs) =
          accGo b (val (dwa_add (prod SIZE t b).1 (dwa_fromuint (digitIdx c)))) cs := by
        show accGo b ((val t * b + digitIdx c) % DMOD) cs = _
        rw [ht'v]
      cases cs with
      | nil =>
          have hv0 : validB b 0 = false := validB_zero_aux b (by omega)
          rw [show (([] : List Nat).getD 0 0) = 0 from rfl, hv0]
          rw [if_neg (by simp)]
          rw [hacc]
          show _ = (natToDwa (accGo b _ []), ([] : List Nat))
          rw [show ∀ v, accGo b v [] = v from fun _ => rfl,
            natToDwa_val_eq ht'w]
      | cons c2 cs2 =>
          have hv2 : validB b c2 = true := hv c2 (by simp)
          rw [show (((c2 :: cs2) : List Nat).getD 0 0) = c2 from rfl, hv2]
          rw [if_pos rfl]
          rw [ih _ ht'w (fun e he => hv e (List.mem_cons_of_mem c he)) ?_, hacc]
          intro p1 e p2 hsp
          have h1 := hnc (c :: p1) e p2 (by rw [List.cons_append, hsp])
          have h2 : accGo b (val t) (c :: p1) =
              accGo b (val (dwa_add (prod SIZE t b).1 (dwa_fromuint (digitIdx c)))) p1 := by
            show accGo b ((val t * b + digitIdx c) % DMOD) p1 = _
            rw [ht'v]
          rwa [h2] at h1

/-- The scan loop stops at the first digit whose multiply step overflows,
keeping the truncated in-place product and leaving that digit unconsumed. -/
theorem scanGo_overflow {b : Nat} (hb36 : b ≤ 36) :
    ∀ (pre : List Nat) (c : Nat) (rest : List Nat) (t : Dwa), Wf t →
    (∀ e ∈ pre, validB b e = true) → validB b c = true →
    (∀ p1 e p2, pre = p1 ++ e :: p2 → accGo b (val t) p1 * b < DMOD) →
    DMOD ≤ accGo b (val t) pre * b →
    scanGo b (pre ++ c :: rest) t =
      (natToDwa (accGo b (val t) pre * b % DMOD), c :: rest) := by
  intro pre
  induction pre with
  | nil =>
      intro c rest t ht _ _ _ hov
      have hbB : b < BASE := by norm_num [BASE]; omega
      obtain ⟨hp1, hp2, hpw⟩ := prod_SIZE_spec ht hbB
      have hov' : DMOD ≤ val t * b := by simpa [accGo] using hov
      have hc2 : 0 < (prod SIZE t b).2 := by
        rw [hp2]
        exact Nat.div_pos hov' (by norm_num [DMOD, BASE, SIZE])
      have hred : scanGo b (c :: rest) t =
          if 0 < (prod SIZE t b).2 then ((prod SIZE t b).1, c :: rest)
          else if validB b (rest.getD 0 0)
            then scanGo b rest (dwa_add (prod SIZE t b).1 (dwa_fromuint (digitIdx c)))
            else (dwa_add (prod SIZE t b).1 (dwa_fromuint (digitIdx c)), rest) := rfl
      show scanGo b (c :: rest) t = _
      rw [hred, if_pos hc2]
      have : natToDwa (accGo b (val t) [] * b % DMOD) = (prod SIZE t b).1 := by
        show natToDwa (val t * b % DMOD) = _
        rw [← hp1, natToDwa_val_eq hpw]
      rw [this]
  | cons e pre2 ih =>
      intro c rest t ht hvp hvc hnc hov
      have hbB : b < BASE := by norm_num [BASE]; omega
      obtain ⟨hp1, hp2, hpw⟩ := prod_SIZE_spec ht hbB
      have hnoc : val t * b < DMOD := by
        have h0 := hnc [] e pre2 rfl
        simpa [accGo] using h0
      have hc2 : (prod SIZE t b).2 = 0 := by
        rw [hp2]
        exact Nat.div_eq_of_lt hnoc
      have ht'v : val (dwa_add (prod SIZE t b).1 (dwa_fromuint (digitIdx e))) =
          (val t * b + digitIdx e) % DMOD := by
        show val (dwa_addu _ _) = _
        rw [(dwa_addu_spec hpw (dwa_fromuint_spec _).2).1, hp1,
          (dwa_fromuint_spec (digitIdx e)).1, ← Nat.add_mod]
      have ht'w : Wf (dwa_add (prod SIZE t b).1 (dwa_fromuint (digitIdx e))) :=
        (dwa_addu_spec hpw (dwa_fromuint_spec _).2).2
      have hacc : accGo b (val t) (e :: pre2) =
          accGo b (val (dwa_add (prod SIZE t b).1 (dwa_fromuint (digitIdx e)))) pre2 := by
        show accGo b ((val t * b + digitIdx e) % DMOD) pre2 = _
        rw [ht'v]
      have hred : scanGo b (e :: (pre2 ++ c :: rest)) t =
          if 0 < (prod SIZE t b).2 then ((prod SIZE t b).1, e :: (pre2 ++ c :: rest))
          else if validB b ((pre2 ++ c :: rest).getD 0 0)
            then scanGo b (pre2 ++ c :: rest)
              (dwa_add (prod SIZE t b).1 (dwa_fromuint (digitIdx e)))
            else (dwa_add (prod SIZE t b).1 (dwa_fromuint (digitIdx e)),
              pre2 ++ c :: rest) := rfl
      show scanGo b (e :: (pre2 ++ c :: rest)) t = _
      rw [hred, hc2, if_neg (lt_irrefl 0)]
      have hvnext : validB b ((pre2 ++ c :: rest).getD 0 0) = true := by
        cases pre2 with
        | nil => exact hvc
        | cons e2 pre3 =>
            show validB b e2 = true
            exact hvp e2 (List.mem_cons_of_mem e (List.mem_cons_self e2 pre3))
      rw [hvnext, if_pos rfl]
      rw [ih c rest _ ht'w (fun e2 he2 => hvp e2 (List.mem_cons_of_mem e he2)) hvc ?_ ?_,
        hacc]
      · intro p1 e2 p2 hsp
        have h1 := hnc (e :: p1) e2 p2 (by rw [List.cons_append, hsp])
        rwa [show accGo b (val t) (e :: p1) =
            accGo b (val (dwa_add (prod SIZE t b).1 (dwa_fromuint (digitIdx e)))) p1 by
          show accGo b ((val t * b + digitIdx e) % DMOD) p1 = _
          rw [ht'v]] at h1
      · rwa [← hacc]

theorem digitsGo_mem {b : Nat} (hb2 : 2 ≤ b) :
    ∀ (fuel n : Nat), ∀ c ∈ digitsGo b fuel n, ∃ d, d < b ∧ c = map.getD d 0 := by
  intro fuel
  induction fuel with
  | zero => intro n c hc; simp [digitsGo] at hc
  | succ fuel ih =>
      intro n c hc
      unfold digitsGo at hc
      rcases List.mem_cons.mp hc with h | h
      · exact ⟨n % b, Nat.mod_lt _ (by omega), h⟩
      · by_cases h0 : n / b ≠ 0
        · rw [if_pos h0] at h
          exact ih (n / b) c h
        · rw [if_neg h0] at h
          simp at h

theorem digitsGo_ne_nil (b : Nat) (fuel n : Nat) (hf : 0 < fuel) :
    digitsGo b fuel n ≠ [] := by
  cases fuel with
  | zero => omega
  | succ fuel => simp [digitsGo]

theorem digitsGo_horner {b : Nat} (hb2 : 2 ≤ b) (hb36 : b ≤ 36) :
    ∀ (fuel n v : Nat), n < b ^ fuel →
    hornerScan b v ((digitsGo b fuel n).reverse) =
      v * b ^ (digitsGo b fuel n).length + n := by
  intro fuel
  induction fuel with
  | zero =>
      intro n v hn
      have : n = 0 := by simpa using hn
      subst this
      simp [digitsGo, hornerScan]
  | succ fuel ih =>
      intro n v hn
      have hmod : n % b < 36 := by
        have := Nat.mod_lt n (show 0 < b by omega)
        omega
      have hdi : digitIdx (map.getD (n % b) 0) = n % b := digitIdx_map _ hmod
      by_cases h0 : n / b ≠ 0
      · have hL0 : digitsGo b (fuel + 1) n = map.getD (n % b) 0 ::
            (if n / b ≠ 0 then digitsGo b fuel (n / b) else []) := rfl
        have hL : digitsGo b (fuel + 1) n =
            map.getD (n % b) 0 :: digitsGo b fuel (n / b) := by
          rw [hL0, if_pos h0]
        have hnb : n / b < b ^ fuel := by
          apply Nat.div_lt_of_lt_mul
          calc n < b ^ (fuel + 1) := hn
            _ = b * b ^ fuel := by ring
        rw [hL, List.reverse_cons, hornerScan_append, ih (n / b) v hnb,
          hornerScan_cons, hornerScan_nil, hdi]
        show _ = v * b ^ ((digitsGo b fuel (n / b)).length + 1) + n
        rw [pow_succ]
        have hdm : n / b * b + n % b = n := Nat.div_add_mod' n b
        calc (v * b ^ (digitsGo b fuel (n / b)).length + n / b) * b + n % b
            = v * (b ^ (digitsGo b fuel (n / b)).length * b) + (n / b * b + n % b) := by
              ring
          _ = v * (b ^ (digitsGo b fuel (n / b)).length * b) + n := by rw [hdm]
      · push_neg at h0
        have hL0 : digitsGo b (fuel + 1) n = map.getD (n % b) 0 ::
            (if n / b ≠ 0 then digitsGo b fuel (n / b) else []) := rfl
        have hL : digitsGo b (fuel + 1) n = [map.getD (n % b) 0] := by
          rw [hL0, if_neg (by omega)]
        have hnb : n < b := by
          rcases Nat.lt_or_ge n b with h | h
          · exact h
          · exact absurd h0 (by
              have := Nat.div_pos h (show 0 < b by omega)
              omega)
        rw [hL]
        show hornerScan b (v * b + digitIdx (map.getD (n % b) 0)) [] = v * b ^ 1 + n
        rw [hornerScan_nil, hdi, Nat.mod_eq_of_lt hnb, pow_one]

/-- The loop of `dwa_tostru` computes the pure base-`b` digit decomposition
of the value. -/
theorem tostruGo_eq {b : Nat} (hb2 : 2 ≤ b) (hb36 : b ≤ 36) :
    ∀ (fuel : Nat) (x : Dwa), Wf x →
    tostruGo b fuel x = digitsGo b fuel (val x) := by
  intro fuel
  induction fuel with
  | zero => intro x _; rfl
  | succ fuel ih =>
      intro x hx
      have hb0 : 0 < b := by omega
      have hbB : b ≤ BASE := by norm_num [BASE]; omega
      obtain ⟨hmv, hmw⟩ := quot_mod_spec hx hb0 hbB
      obtain ⟨hdv, hdw⟩ := quot_div_spec hx hb0
      have hr : dwa_touint (quot x b true) = val x % b := by
        rw [dwa_touint_spec hmw, hmv]
        apply Nat.mod_eq_of_lt
        have h1 : val x % b < b := Nat.mod_lt _ hb0
        have h2 : b < UMOD := by norm_num [UMOD]; omega
        omega
      have hred : tostruGo b (fuel + 1) x =
          map.getD (dwa_touint (quot x b true)) 0 ::
            (if 1 < len (quot x b false) ∨ (quot x b false).getD 0 0 ≠ 0
              then tostruGo b fuel (quot x b false) else []) := rfl
      have hred2 : digitsGo b (fuel + 1) (val x) =
          map.getD (val x % b) 0 ::
            (if val x / b ≠ 0 then digitsGo b fuel (val x / b) else []) := rfl
      rw [hred, hred2, hr]
      congr 1
      rw [if_congr (by rw [tostru_cond_iff hdw, hdv]) (by rw [ih _ hdw, hdv]) rfl]

/-- `dwa_tostru` produces the base-`b` digit characters of the value, most
significant first. -/
theorem dwa_tostru_spec {x : Dwa} (hx : Wf x) {b : Nat} (hb2 : 2 ≤ b)
    (hb36 : b ≤ 36) :
    dwa_tostru x b = (digitsGo b (8 * SIZE) (val x)).reverse := by
  unfold dwa_tostru
  rw [tostruGo_eq hb2 hb36 _ x hx]

/-- Parsing a pure digit string (with and without a leading minus sign). -/
theorem fromstr_digits {b : Nat} (hb2 : 2 ≤ b) (hb36 : b ≤ 36) (L : List Nat)
    (hmem : ∀ c ∈ L, ∃ d, d < b ∧ c = map.getD d 0)
    (hne : L ≠ [])
    (hhor : hornerScan b 0 L < DMOD) :
    dwa_fromstr L b = (natToDwa (hornerScan b 0 L), []) ∧
    dwa_fromstr (45 :: L) b = (dwa_neg (natToDwa (hornerScan b 0 L)), []) := by
  obtain ⟨c0, L1, rfl⟩ : ∃ c0 L1, L = c0 :: L1 := by
    cases L with
    | nil => exact absurd rfl hne
    | cons a l => exact ⟨a, l, rfl⟩
  obtain ⟨d0, hd0b, hc0⟩ := hmem c0 (List.mem_cons_self c0 L1)
  have hd036 : d0 < 36 := by omega
  obtain ⟨h48, h122, hsp, h45, h43⟩ := map_getD_facts d0 hd036
  rw [← hc0] at h48 h122 hsp h45 h43
  have hvc0 : validB b c0 = true := by
    rw [hc0]
    exact digit_map_valid b (by omega) d0 hd036 hd0b
  have hvall : ∀ c ∈ c0 :: L1, validB b c = true := by
    intro c hcm
    obtain ⟨d, hdb, hcd⟩ := hmem c hcm
    rw [hcd]
    exact digit_map_valid b (by omega) d (by omega) hdb
  have hhex : ¬(b = 16 ∧ hexPref (c0 :: L1) = true) := by
    rintro ⟨rfl, hp⟩
    unfold hexPref at hp
    simp only [List.getD_cons_succ, List.getD_cons_zero, Bool.and_eq_true,
      Bool.or_eq_true, decide_eq_true_eq] at hp
    cases L1 with
    | nil =>
        rcases hp with ⟨⟨_, h1⟩, _⟩
        simp at h1
    | cons c1 L2 =>
        have hv16 := validB16_ne (hvall c1 (List.mem_cons_of_mem c0
          (List.mem_cons_self c1 L2)))
        rcases hp with ⟨⟨_, h1⟩, _⟩
        simp only [List.getD_cons_zero] at h1
        rcases h1 with h1 | h1
        · exact hv16.1 h1
        · exact hv16.2 h1
  have hb1 : 1 ≤ b := by omega
  have hsteps : ∀ p1 c p2, (c0 :: L1) = p1 ++ c :: p2 →
      accGo b (val zeroDwa) p1 * b < DMOD := by
    intro p1 c p2 hsp2
    have hpre : hornerScan b 0 p1 ≤ hornerScan b 0 (c0 :: L1) := by
      rw [hsp2, hornerScan_append]
      exact hornerScan_ge hb1 _ _
    have hp1lt : hornerScan b 0 p1 < DMOD := lt_of_le_of_lt hpre hhor
    have hmul : hornerScan b 0 p1 * b ≤ hornerScan b 0 (c0 :: L1) := by
      rw [hsp2]
      exact hornerScan_prefix_mul_le hb1 0 p1 c p2
    rw [val_zeroDwa, accGo_eq_horner hb1 p1 0 hp1lt]
    exact lt_of_le_of_lt hmul hhor
  have hscan : scanGo b (c0 :: L1) zeroDwa =
      (natToDwa (hornerScan b 0 (c0 :: L1)), []) := by
    rw [scanGo_complete hb36 _ _ wf_zeroDwa hvall hsteps, val_zeroDwa,
      accGo_eq_horner hb1 _ 0 hhor]
  constructor
  · have hdw : List.dropWhile (fun c => isspaceB c) (c0 :: L1) = c0 :: L1 := by
      rw [List.dropWhile_cons, if_neg (by simp [hsp])]
    simp only [dwa_fromstr]
    rw [hdw]
    rw [show ((c0 :: L1).getD 0 0) = c0 from rfl]
    rw [if_neg (show ¬(c0 = 45 ∨ c0 = 43) from by
      rintro (h | h)
      exacts [h45 h, h43 h])]
    rw [if_neg (show ¬(b = 0) from by omega)]
    rw [if_neg hhex]
    rw [show ((b, c0 :: L1) : Nat × List Nat).1 = b from rfl,
      show ((b, c0 :: L1) : Nat × List Nat).2 = c0 :: L1 from rfl,
      show ((c0 :: L1).getD 0 0) = c0 from rfl]
    rw [if_pos hvc0, hscan]
    rw [if_neg (show ¬((decide (c0 = 45)) = true) from by simp [h45])]
  · have hdw2 : List.dropWhile (fun c => isspaceB c) (45 :: c0 :: L1) =
        45 :: c0 :: L1 := by
      rw [List.dropWhile_cons, if_neg (by simp [isspaceB])]
    simp only [dwa_fromstr]
    rw [hdw2]
    rw [show ((45 :: c0 :: L1).getD 0 0) = 45 from rfl]
    rw [if_pos (Or.inl rfl)]
    rw [show ((45 :: c0 :: L1).drop 1) = c0 :: L1 from rfl]
    rw [if_neg (show ¬(b = 0) from by omega)]
    rw [if_neg hhex]
    rw [show ((b, c0 :: L1) : Nat × List Nat).1 = b from rfl,
      show ((b, c0 :: L1) : Nat × List Nat).2 = c0 :: L1 from rfl,
      show ((c0 :: L1).getD 0 0) = c0 from rfl]
    rw [if_pos hvc0, hscan]
    rw [if_pos (show (decide ((45 : Nat) = 45)) = true from by simp)]

/-- C4: string round-trip — for every representable value `x` and base
`b ∈ 2..36`, parsing the output of the signed to-string conversion in the
same base returns exactly `x` and consumes the entire string. -/
theorem C4_string_roundtrip (x : Dwa) (b : Nat) (hx : Wf x) (hb2 : 2 ≤ b)
    (hb36 : b ≤ 36) :
    dwa_fromstr (dwa_tostr x b) b = (x, []) := by
  have hDb : DMOD ≤ b ^ (8 * SIZE) := by
    rw [DMOD_eq]
    exact Nat.pow_le_pow_left hb2 64
  have hfacts : ∀ z : Dwa, Wf z →
      (∀ c ∈ (digitsGo b (8 * SIZE) (val z)).reverse,
        ∃ d, d < b ∧ c = map.getD d 0) ∧
      (digitsGo b (8 * SIZE) (val z)).reverse ≠ [] ∧
      hornerScan b 0 ((digitsGo b (8 * SIZE) (val z)).reverse) = val z := by
    intro z hz
    have hlt : val z < b ^ (8 * SIZE) := lt_of_lt_of_le (val_lt_DMOD hz) hDb
    refine ⟨?_, ?_, ?_⟩
    · intro c hc
      exact digitsGo_mem hb2 _ _ c (List.mem_reverse.mp hc)
    · simp only [ne_eq, List.reverse_eq_nil_iff]
      exact digitsGo_ne_nil b _ _ (by norm_num [SIZE])
    · rw [digitsGo_horner hb2 hb36 _ _ 0 hlt, Nat.zero_mul, Nat.zero_add]
  by_cases hs : sign x = 0
  · obtain ⟨hm, hn, hh⟩ := hfacts x hx
    rw [dwa_tostr, if_neg (by simp [hs]), dwa_tostru_spec hx hb2 hb36]
    obtain ⟨h1, _⟩ := fromstr_digits hb2 hb36 _ hm hn
      (by rw [hh]; exact val_lt_DMOD hx)
    rw [h1, hh, natToDwa_val_eq hx]
  · obtain ⟨hm, hn, hh⟩ := hfacts (dwa_neg x) (wf_dwa_neg hx)
    rw [dwa_tostr, if_pos hs, dwa_tostru_spec (wf_dwa_neg hx) hb2 hb36]
    obtain ⟨_, h2⟩ := fromstr_digits hb2 hb36 _ hm hn
      (by rw [hh]; exact val_lt_DMOD (wf_dwa_neg hx))
    rw [h2, hh, natToDwa_val_eq (wf_dwa_neg hx)]
    have hnn : dwa_neg (dwa_neg x) = x :=
      val_inj (wf_dwa_neg (wf_dwa_neg hx)).2 hx.2
        (by rw [(wf_dwa_neg (wf_dwa_neg hx)).1, hx.1]) (val_dwa_neg_neg hx)
    rw [hnn]

/-- Witness for C4 at a concrete negative value and base 10. -/
theorem C4_string_roundtrip_witness :
    Wf (dwa_fromint (-12345)) ∧ (2 ≤ 10 ∧ 10 ≤ 36) ∧
    dwa_fromstr (dwa_tostr (dwa_fromint (-12345)) 10) 10 =
      (dwa_fromint (-12345), []) := by
  refine ⟨by decide, ⟨by norm_num, by norm_num⟩, ?_⟩
  exact C4_string_roundtrip (dwa_fromint (-12345)) 10 (by decide)
    (by norm_num) (by norm_num)

/-- C3 counterexample: seventeen hex digits `1` in base 16.  Sixteen digits
are consumed (accumulated value `0x1111111111111111`) and `*end` stops at the
seventeenth, but the returned value is `0x1111111111111110` — the wrapped
in-place product `acc*16 mod 2^64` from the overflow-detecting multiply, not
the accumulated `acc = acc*base + digit` value over the consumed digits. -/
theorem C3_counterexample :
    (dwa_fromstr (List.replicate 17 49) 16).2 = [49] ∧
    val (dwa_fromstr (List.replicate 17 49) 16).1 = 0x1111111111111110 ∧
    (dwa_fromstr (List.replicate 17 49) 16).1 ≠ natToDwa 0x1111111111111111 := by
  decide

/-- C3 (amended): on a digit string whose scan overflows, `dwa_fromstr`
consumes exactly the digits before the first one whose in-place multiply
step reports a carry, leaves `*end` at that digit, and returns the
*truncated in-place product* `acc * base mod 2^(8*SIZE)` of the accumulated
value of the consumed digits (not the accumulated value itself). -/
theorem C3_fromstr_overflow (b : Nat) (pre : List Nat) (c : Nat)
    (rest : List Nat) (hb2 : 2 ≤ b) (hb36 : b ≤ 36)
    (hvp : ∀ e ∈ pre, validB b e = true) (hvc : validB b c = true)
    (hnc : ∀ p1 e p2, pre = p1 ++ e :: p2 → accGo b 0 p1 * b < DMOD)
    (hov : DMOD ≤ accGo b 0 pre * b) :
    dwa_fromstr (pre ++ c :: rest) b =
      (natToDwa (accGo b 0 pre * b % DMOD), c :: rest) := by
  obtain ⟨e0, pre1, rfl⟩ : ∃ e0 pre1, pre = e0 :: pre1 := by
    cases pre with
    | nil =>
        exfalso
        have h0 : accGo b 0 ([] : List Nat) * b = 0 * b := rfl
        rw [h0, Nat.zero_mul] at hov
        exact absurd hov (by norm_num [DMOD, BASE, SIZE])
    | cons a l => exact ⟨a, l, rfl⟩
  have hve0 : validB b e0 = true := hvp e0 (List.mem_cons_self e0 pre1)
  obtain ⟨hsp, h45, h43⟩ := validB_not_special hb36 hve0
  have hhex : ¬(b = 16 ∧ hexPref (e0 :: (pre1 ++ c :: rest)) = true) := by
    rintro ⟨rfl, hp⟩
    unfold hexPref at hp
    simp only [List.getD_cons_succ, List.getD_cons_zero, Bool.and_eq_true,
      Bool.or_eq_true, decide_eq_true_eq] at hp
    rcases hp with ⟨⟨_, h1⟩, _⟩
    cases pre1 with
    | nil =>
        simp only [List.nil_append, List.getD_cons_zero] at h1
        have := validB16_ne hvc
        rcases h1 with h1 | h1
        · exact this.1 h1
        · exact this.2 h1
    | cons e1 pre2 =>
        simp only [List.cons_append, List.getD_cons_zero] at h1
        have := validB16_ne (hvp e1 (List.mem_cons_of_mem e0
          (List.mem_cons_self e1 pre2)))
        rcases h1 with h1 | h1
        · exact this.1 h1
        · exact this.2 h1
  have hnc0 : ∀ p1 e p2, e0 :: pre1 = p1 ++ e :: p2 →
      accGo b (val zeroDwa) p1 * b < DMOD := by
    rw [val_zeroDwa]
    exact hnc
  have hov0 : DMOD ≤ accGo b (val zeroDwa) (e0 :: pre1) * b := by
    rw [val_zeroDwa]
    exact hov
  have hscan := scanGo_overflow hb36 (e0 :: pre1) c rest zeroDwa wf_zeroDwa
    hvp hvc hnc0 hov0
  rw [val_zeroDwa] at hscan
  have hstr : (e0 :: pre1) ++ c :: rest = e0 :: (pre1 ++ c :: rest) := rfl
  have hdw : List.dropWhile (fun c => isspaceB c) (e0 :: (pre1 ++ c :: rest)) =
      e0 :: (pre1 ++ c :: rest) := by
    rw [List.dropWhile_cons, if_neg (by simp [hsp])]
  rw [hstr] at hscan ⊢
  simp only [dwa_fromstr]
  rw [hdw]
  rw [show ((e0 :: (pre1 ++ c :: rest)).getD 0 0) = e0 from rfl]
  rw [if_neg (show ¬(e0 = 45 ∨ e0 = 43) from by
    rintro (h | h)
    exacts [h45 h, h43 h])]
  rw [if_neg (show ¬(b = 0) from by omega)]
  rw [if_neg hhex]
  rw [show ((b, e0 :: (pre1 ++ c :: rest)) : Nat × List Nat).1 = b from rfl,
    show ((b, e0 :: (pre1 ++ c :: rest)) : Nat × List Nat).2 =
      e0 :: (pre1 ++ c :: rest) from rfl,
    show ((e0 :: (pre1 ++ c :: rest)).getD 0 0) = e0 from rfl]
  rw [if_pos hve0, hscan]
  rw [if_neg (show ¬((decide (e0 = 45)) = true) from by simp [h45])]

/-- Witness for C3’s amended theorem: sixteen `1` digits followed by a
seventeenth, base 16. -/
theorem C3_fromstr_overflow_witness :
    validB 16 49 = true ∧
    DMOD ≤ accGo 16 0 (List.replicate 16 49) * 16 ∧
    dwa_fromstr (List.replicate 16 49 ++ [49]) 16 =
      (natToDwa (accGo 16 0 (List.replicate 16 49) * 16 % DMOD), [49]) := by
  refine ⟨by decide, by decide, ?_⟩
  apply C3_fromstr_overflow 16 (List.replicate 16 49) 49 []
    (by norm_num) (by norm_num) (by decide) (by decide) ?_ (by decide)
  intro p1 e p2 h
  have hlen : p1.length ≤ 15 := by
    have h2 := congrArg List.length h
    simp at h2
    omega
  have hall : ∀ d ∈ p1, d = 49 := by
    intro d hd
    have hmem : d ∈ List.replicate 16 49 := by
      rw [h]
      exact List.mem_append_left _ hd
    exact List.eq_of_mem_replicate hmem
  have hp1 : p1 = List.replicate p1.length 49 :=
    List.eq_replicate_of_mem hall
  have hk : ∀ k < 16, accGo 16 0 (List.replicate k 49) * 16 < DMOD := by decide
  rw [hp1]
  exact hk p1.length (by omega)

/-- C10: with explicit base 16, a leading `0x` (or `0X`) prefix is skipped
exactly when a hexadecimal digit follows it; otherwise the leading `0` is the
only digit consumed, the value is zero, and `*end` points at the `x`.  The
concrete case `"0xz"` is included. -/
theorem C10_hex_pref_base16 (X : Nat) (rest : List Nat)
    (hX : X = 120 ∨ X = 88) :
    (isxdigitB (rest.getD 0 0) = true →
      dwa_fromstr (48 :: X :: rest) 16 = scanGo 16 rest zeroDwa) ∧
    (isxdigitB (rest.getD 0 0) = false →
      dwa_fromstr (48 :: X :: rest) 16 = (zeroDwa, X :: rest)) ∧
    dwa_fromstr [48, 120, 122] 16 = (zeroDwa, [120, 122]) := by
  have hXs : isspaceB X = false := by
    rcases hX with rfl | rfl <;> decide
  have hdw : List.dropWhile (fun c => isspaceB c) (48 :: X :: rest) =
      48 :: X :: rest := by
    rw [List.dropWhile_cons, if_neg (by simp [isspaceB])]
  refine ⟨?_, ?_, by decide⟩
  · intro hxd
    have hv : validB 16 (rest.getD 0 0) = true := isxdigit_valid16 hxd
    have hhp : hexPref (48 :: X :: rest) = true := by
      have hxd2 : isxdigitB ((48 :: X :: rest).getD 2 0) = true := hxd
      unfold hexPref
      rw [hxd2]
      rcases hX with rfl | rfl <;> rfl
    simp only [dwa_fromstr]
    rw [hdw]
    rw [show ((48 :: X :: rest).getD 0 0) = 48 from rfl]
    rw [if_neg (show ¬((48 : Nat) = 45 ∨ (48 : Nat) = 43) from by norm_num)]
    rw [if_neg (show ¬((16 : Nat) = 0) from by norm_num)]
    rw [if_pos (show True ∧ hexPref (48 :: X :: rest) = true from ⟨trivial, hhp⟩)]
    rw [show ((48 :: X :: rest).drop 2) = rest from rfl]
    rw [show ((16, rest) : Nat × List Nat).1 = 16 from rfl,
      show ((16, rest) : Nat × List Nat).2 = rest from rfl]
    rw [if_pos hv]
    rw [if_neg (show ¬((decide ((48 : Nat) = 45)) = true) from by decide)]
  · intro hxd
    have hXv : validB 16 X = false := by
      rcases hX with rfl | rfl <;> decide
    have hhp : hexPref (48 :: X :: rest) = false := by
      have hxd2 : isxdigitB ((48 :: X :: rest).getD 2 0) = false := hxd
      unfold hexPref
      rw [hxd2]
      simp
    have hscan : scanGo 16 (48 :: X :: rest) zeroDwa =
        (dwa_add (prod SIZE zeroDwa 16).1 (dwa_fromuint (digitIdx 48)),
          X :: rest) := by
      have hred : scanGo 16 (48 :: X :: rest) zeroDwa =
          if 0 < (prod SIZE zeroDwa 16).2 then
            ((prod SIZE zeroDwa 16).1, 48 :: X :: rest)
          else if validB 16 ((X :: rest).getD 0 0)
            then scanGo 16 (X :: rest)
              (dwa_add (prod SIZE zeroDwa 16).1 (dwa_fromuint (digitIdx 48)))
            else (dwa_add (prod SIZE zeroDwa 16).1 (dwa_fromuint (digitIdx 48)),
              X :: rest) := rfl
      rw [hred, show (prod SIZE zeroDwa 16).2 = 0 from rfl,
        if_neg (lt_irrefl 0)]
      rw [show ((X :: rest).getD 0 0) = X from rfl, hXv]
      rw [if_neg (by simp)]
    have hzero : dwa_add (prod SIZE zeroDwa 16).1 (dwa_fromuint (digitIdx 48)) =
        zeroDwa := by decide
    simp only [dwa_fromstr]
    rw [hdw]
    rw [show ((48 :: X :: rest).getD 0 0) = 48 from rfl]
    rw [if_neg (show ¬((48 : Nat) = 45 ∨ (48 : Nat) = 43) from by norm_num)]
    rw [if_neg (show ¬((16 : Nat) = 0) from by norm_num)]
    rw [if_neg (show ¬(True ∧ hexPref (48 :: X :: rest) = true) from by
      rintro ⟨_, hp⟩
      rw [hhp] at hp
      exact Bool.false_ne_true hp)]
    rw [show ((16, 48 :: X :: rest) : Nat × List Nat).1 = 16 from rfl,
      show ((16, 48 :: X :: rest) : Nat × List Nat).2 = 48 :: X :: rest from rfl,
      show ((48 :: X :: rest).getD 0 0) = 48 from rfl]
    rw [if_pos (show validB 16 48 = true from by decide)]
    rw [hscan, hzero]
    rw [if_neg (show ¬((decide ((48 : Nat) = 45)) = true) from by decide)]

/-- Witness for C10 at `"0xz"`. -/
theorem C10_hex_pref_witness :
    ((120 : Nat) = 120 ∨ (120 : Nat) = 88) ∧
    isxdigitB ([122].getD 0 0) = false ∧
    dwa_fromstr (48 :: 120 :: [122]) 16 = (zeroDwa, 120 :: [122]) := by
  refine ⟨Or.inl rfl, by decide, ?_⟩
  exact (C10_hex_pref_base16 120 [122] (Or.inl rfl)).2.1 (by decide)

/-- C2: the modelled constants have the claimed digit patterns
(least-significant digit first: `dwa_umax` is all `0xFF`, `dwa_max` is `0xFF`
digits capped by `0x7F`, `dwa_min` is zero digits capped by `0x80`) and are
extremal: every well-formed value is at most `dwa_umax` unsigned, and lies
between `dwa_min` and `dwa_max` in signed reading. -/
theorem C2_constants (x : Dwa) (hx : Wf x) :
    dwa_umax = List.replicate SIZE 255 ∧
    dwa_max = [255, 255, 255, 255, 255, 255, 255, 127] ∧
    dwa_min = [0, 0, 0, 0, 0, 0, 0, 128] ∧
    val x ≤ val dwa_umax ∧ sval dwa_min ≤ sval x ∧ sval x ≤ sval dwa_max := by
  refine ⟨by decide, by decide, by decide, ?_, ?_, ?_⟩
  · have h1 : val dwa_umax = DMOD - 1 := by decide
    have h2 := val_lt_DMOD hx
    omega
  · have h1 : sval dwa_min = -(2 ^ 63) := by decide
    rw [h1]
    by_cases hs : sign x = 0
    · have := sval_of_lt hx ((sign_eq_zero_iff hx).mp hs)
      rw [this]
      have : (0 : Int) ≤ (val x : Int) := Int.ofNat_nonneg _
      omega
    · have hge : 2 ^ 63 ≤ val x := by
        by_contra h
        push_neg at h
        exact hs ((sign_eq_zero_iff hx).mpr h)
      rw [sval_of_ge hx hge, DMOD_cast]
      have : (2 ^ 63 : Int) ≤ (val x : Int) := by exact_mod_cast hge
      omega
  · have h1 : sval dwa_max = 2 ^ 63 - 1 := by decide
    rw [h1]
    by_cases hs : sign x = 0
    · have := sval_of_lt hx ((sign_eq_zero_iff hx).mp hs)
      rw [this]
      have h2 : (val x : Int) < 2 ^ 63 := by
        exact_mod_cast (sign_eq_zero_iff hx).mp hs
      omega
    · have hge : 2 ^ 63 ≤ val x := by
        by_contra h
        push_neg at h
        exact hs ((sign_eq_zero_iff hx).mpr h)
      rw [sval_of_ge hx hge, DMOD_cast]
      have h2 : (val x : Int) < 2 ^ 64 := by exact_mod_cast val_lt_DMOD hx
      omega

/-- Witness for C2 at a concrete value. -/
theorem C2_constants_witness :
    Wf (natToDwa 5) ∧
    (dwa_umax = List.replicate SIZE 255 ∧
      dwa_max = [255, 255, 255, 255, 255, 255, 255, 127] ∧
      dwa_min = [0, 0, 0, 0, 0, 0, 0, 128] ∧
      val (natToDwa 5) ≤ val dwa_umax ∧
      sval dwa_min ≤ sval (natToDwa 5) ∧
      sval (natToDwa 5) ≤ sval dwa_max) :=
  ⟨by decide, C2_constants (natToDwa 5) (by decide)⟩

end Dwa
